import Mathlib

/-!
# CYOA-Engine: a shallow embedding of the story-text core

This file embeds the story-text processing core of the CYOA engine/editor
(`src/ts/shared/utils.ts`, `src/ts/shared/format.ts`, the engine variables
and player modules, the editor pages module and the graph builder) as
executable Lean definitions over `List Char` texts, and proves properties
of those definitions.

Conventions:
* JS strings are modelled as `List Char`; `String.data` converts literals.
* JS regex scans are modelled as explicit left-to-right scanners.  Each
  scanner takes a fuel argument (any fuel of at least the text length is
  enough, since every step consumes at least one character); the public
  wrappers instantiate the fuel with the text length plus one.
* JS `number` values are modelled as `Int`; `Number(s)` is modelled for
  optionally signed decimal integer literals (and the empty string, which
  JS converts to 0).  Fractional literals therefore fall back to strings;
  none of the properties proved below depends on which literals are
  numeric.
-/

namespace CYOA

/-- ASCII lower-casing, as `String.prototype.toLowerCase` acts on ASCII. -/
def jsToLower (c : Char) : Char :=
  if 'A' ≤ c ∧ c ≤ 'Z' then Char.ofNat (c.toNat + 32) else c

/-- Decimal digit, as regex `\d`. -/
def isDigitC (c : Char) : Bool := '0' ≤ c ∧ c ≤ '9'

/-- Word character, as regex `\w`. -/
def isWordChar (c : Char) : Bool :=
  ('a' ≤ c ∧ c ≤ 'z') ∨ ('A' ≤ c ∧ c ≤ 'Z') ∨ ('0' ≤ c ∧ c ≤ '9') ∨ c = '_'

/-- Whitespace, as regex `\s` (ASCII part) and `String.prototype.trim`. -/
def isWsChar (c : Char) : Bool :=
  c = ' ' ∨ c = '\t' ∨ c = '\n' ∨ c = '\r' ∨ c = '\x0b' ∨ c = '\x0c'

/-- The choice-letter alphabet `[a-e]` under the `i` flag. -/
def isChoiceLetter (c : Char) : Bool :=
  ('a' ≤ c ∧ c ≤ 'e') ∨ ('A' ≤ c ∧ c ≤ 'E')

/-- `String.prototype.trim`. -/
def trimStr (s : List Char) : List Char :=
  ((s.dropWhile isWsChar).reverse.dropWhile isWsChar).reverse

/-- Case-insensitive literal match: if `pat` is a (lower-case) literal and a
case-insensitive prefix of `s`, return the rest of `s`. -/
def dropPrefixCI (pat : List Char) (s : List Char) : Option (List Char) :=
  match pat, s with
  | [], s => some s
  | _ :: _, [] => none
  | p :: ps, c :: cs => if jsToLower c = p then dropPrefixCI ps cs else none

/-- Case-sensitive literal match returning the rest. -/
def dropPrefixCS (pat : List Char) (s : List Char) : Option (List Char) :=
  match pat, s with
  | [], s => some s
  | _ :: _, [] => none
  | p :: ps, c :: cs => if c = p then dropPrefixCS ps cs else none

/-- Whether the (lower-case) literal `pat` occurs anywhere in `s`,
case-insensitively. -/
def containsCI (pat : List Char) : List Char → Bool
  | [] => (dropPrefixCI pat []).isSome
  | c :: cs => (dropPrefixCI pat (c :: cs)).isSome || containsCI pat cs

/-- A runtime variable value: `string | number | boolean`. -/
inductive VarValue : Type where
  | str : List Char → VarValue
  | num : Int → VarValue
  | bool : Bool → VarValue
deriving DecidableEq, Repr

/-- A variable-state snapshot (a JS object), as an association list. -/
abbrev VarState : Type := List (List Char × VarValue)

/-- Empty state, `createVariableState`. -/
def emptyVars : VarState := []

/-- Property read `variables[name]` (`undefined` when absent). -/
def lookupVar (vars : VarState) (name : List Char) : Option VarValue :=
  match vars with
  | [] => none
  | (k, v) :: rest => if k = name then some v else lookupVar rest name

/-- Property write `variables[name] = value`. -/
def setVar (vars : VarState) (name : List Char) (value : VarValue) : VarState :=
  match vars with
  | [] => [(name, value)]
  | (k, v) :: rest =>
      if k = name then (k, value) :: rest else (k, v) :: setVar rest name value

/-- `Number(s)` restricted to optionally signed decimal integer literals;
the empty string evaluates to 0 as in JS.  Anything else is `none` (NaN). -/
def jsNumber (s : List Char) : Option Int :=
  match s with
  | [] => some 0
  | '+' :: ds => if ds ≠ [] ∧ ds.all isDigitC then some (ofDigits ds) else none
  | '-' :: ds => if ds ≠ [] ∧ ds.all isDigitC then some (-(ofDigits ds)) else none
  | ds => if ds.all isDigitC then some (ofDigits ds) else none
where
  /-- Decimal value of a digit string. -/
  ofDigits (ds : List Char) : Int :=
    ds.foldl (fun a c => 10 * a + (c.toNat - '0'.toNat : Int)) 0

/-- `parseVariableValue` from `shared/utils.ts`: trim, then
`true`/`false`, then `Number`, else the trimmed string. -/
def parseVariableValue (value : List Char) : VarValue :=
  let trimmed := trimStr value
  if trimmed = "true".data then .bool true
  else if trimmed = "false".data then .bool false
  else match jsNumber trimmed with
    | some n => .num n
    | none => .str trimmed

/-- `parseValue` (identical private helper in `shared/format.ts` and the
engine variables module): like `parseVariableValue` but without the trim,
which callers perform themselves. -/
def parseValue (value : List Char) : VarValue :=
  if value = "true".data then .bool true
  else if value = "false".data then .bool false
  else match jsNumber value with
    | some n => .num n
    | none => .str value

/-- `evaluateCondition` from `shared/utils.ts`.  The operator is a string,
as in the source (the `switch` has a `default: return false`). -/
def evaluateCondition (vars : VarState) (name : List Char)
    (operator : List Char) (compareValue : VarValue) : Bool :=
  match lookupVar vars name with
  | none =>
      operator = "!=".data || (operator = "==".data && compareValue = .bool false)
  | some value =>
      if operator = "==".data then value = compareValue
      else if operator = "!=".data then value ≠ compareValue
      else if operator = ">".data then
        match value, compareValue with
        | .num a, .num b => b < a
        | _, _ => false
      else if operator = "<".data then
        match value, compareValue with
        | .num a, .num b => a < b
        | _, _ => false
      else if operator = ">=".data then
        match value, compareValue with
        | .num a, .num b => b ≤ a
        | _, _ => false
      else if operator = "<=".data then
        match value, compareValue with
        | .num a, .num b => a ≤ b
        | _, _ => false
      else false

/-- Generic model of a `regex.exec` loop under the `g` flag: at each
position try the matcher; on a match, record it and resume after the
consumed span, otherwise advance one character.  Every step consumes at
least one character, so any fuel of at least the text length is enough. -/
def scanListF (p : List Char → Option (α × List Char)) : Nat → List Char → List α
  | 0, _ => []
  | _ + 1, [] => []
  | f + 1, c :: cs =>
    match p (c :: cs) with
    | some (a, rest) => a :: scanListF p f rest
    | none => scanListF p f cs

/-- The five operation kinds of `parseVariables`. -/
inductive VarOpType : Type where
  | set | add | sub | ifStart | endif
deriving DecidableEq, Repr

/-- A `VariableOperation` record (`fullMatch`, which only feeds the
text-rewriting of `processVariables`, is not carried; the state fold below
is the state projection of that loop). -/
structure VariableOperation : Type where
  type : VarOpType
  name : List Char
  value : Option VarValue := none
  operator : Option (List Char) := none
deriving DecidableEq, Repr

/-- Nonempty `(\w+)` capture. -/
def parseName (s : List Char) : Option (List Char × List Char) :=
  let nm := s.takeWhile isWordChar
  if nm = [] then none else some (nm, s.dropWhile isWordChar)

/-- Match `\{set:(\w+)=([^}]+)\}` at the current position. -/
def parseSetAt (s : List Char) : Option (VariableOperation × List Char) :=
  match dropPrefixCI "\x7bset:".data s with
  | none => none
  | some r0 =>
    match parseName r0 with
    | none => none
    | some (name, r1) =>
      match r1 with
      | '=' :: r2 =>
        let v := r2.takeWhile fun c => c ≠ '\x7d'
        match v, r2.dropWhile fun c => c ≠ '\x7d' with
        | _ :: _, '\x7d' :: r3 =>
            some (⟨.set, name, some (parseVariableValue v), none⟩, r3)
        | _, _ => none
      | _ => none

/-- Match `\{add:(\w+)(?:=([^}]+))?\}` (resp. `sub`) at the current
position; a missing value means an implicit numeric 1. -/
def parseAddSubAt (ty : VarOpType) (kw : List Char) (s : List Char) :
    Option (VariableOperation × List Char) :=
  match dropPrefixCI kw s with
  | none => none
  | some r0 =>
    match parseName r0 with
    | none => none
    | some (name, r1) =>
      match r1 with
      | '=' :: r2 =>
        let v := r2.takeWhile fun c => c ≠ '\x7d'
        match v, r2.dropWhile fun c => c ≠ '\x7d' with
        | _ :: _, '\x7d' :: r3 =>
            some (⟨ty, name, some (parseVariableValue v), none⟩, r3)
        | _, _ => none
      | '\x7d' :: r2 => some (⟨ty, name, some (.num 1), none⟩, r2)
      | _ => none

/-- The comparison-operator alternation `==|!=|>=|<=|>|<` followed by
`([^}]+)\}`, with the regex engine's backtracking through the
alternatives: an alternative whose value capture would be empty or
unclosed yields to the next one. -/
def tryCmpOps : List (List Char) → List Char → Option (List Char × List Char × List Char)
  | [], _ => none
  | op :: ops, s =>
    match dropPrefixCS op s with
    | some r2 =>
      let v := r2.takeWhile fun c => c ≠ '\x7d'
      match v, r2.dropWhile fun c => c ≠ '\x7d' with
      | _ :: _, '\x7d' :: r3 => some (op, v, r3)
      | _, _ => tryCmpOps ops s
    | none => tryCmpOps ops s

/-- The comparison operators in the alternation order of the source. -/
def cmpOps : List (List Char) :=
  ["==".data, "!=".data, ">=".data, "<=".data, ">".data, "<".data]

/-- Match the conditional header
`\{if:(\w+)(?:(==|!=|>=|<=|>|<)([^}]+))?\}` at the current position,
returning the name, the optional operator with its raw value capture, and
the rest of the text.  The optional group is tried before its absence, as
a greedy `(?:...)?` is. -/
def parseIfHeaderAt (s : List Char) :
    Option (List Char × Option (List Char × List Char) × List Char) :=
  match dropPrefixCI "\x7bif:".data s with
  | none => none
  | some r0 =>
    match parseName r0 with
    | none => none
    | some (name, r1) =>
      match tryCmpOps cmpOps r1 with
      | some (op, v, r2) => some (name, some (op, v), r2)
      | none =>
        match r1 with
        | '\x7d' :: r2 => some (name, none, r2)
        | _ => none

/-- Match `\{if:...\}` as a `VariableOperation` (the `if` arm of
`parseVariables`): `operator` defaults to `==`, `value` to boolean true. -/
def parseIfOpAt (s : List Char) : Option (VariableOperation × List Char) :=
  match parseIfHeaderAt s with
  | none => none
  | some (name, some (op, v), rest) =>
      some (⟨.ifStart, name, some (parseVariableValue v), some op⟩, rest)
  | some (name, none, rest) =>
      some (⟨.ifStart, name, some (.bool true), some "==".data⟩, rest)

/-- Match the literal `\{\/if\}` at the current position. -/
def parseEndifAt (s : List Char) : Option (VariableOperation × List Char) :=
  match dropPrefixCI "\x7b/if\x7d".data s with
  | none => none
  | some rest => some (⟨.endif, [], none, none⟩, rest)

/-- `parseVariables` from `shared/utils.ts`: five separate global regex
scans, concatenated in source order — all `set` matches first, then all
`add`, then all `sub`, then all `if`, then all `\{/if\}`. -/
def parseVariables (text : List Char) : List VariableOperation :=
  let f := text.length + 1
  scanListF parseSetAt f text ++
    scanListF (parseAddSubAt .add "\x7badd:".data) f text ++
    scanListF (parseAddSubAt .sub "\x7bsub:".data) f text ++
    scanListF parseIfOpAt f text ++
    scanListF parseEndifAt f text

/-- The state effect of one iteration of the `processVariables` loop
(identical in `shared/format.ts` and the engine variables module): `set`
overwrites with the typed value; `add`/`sub` require a numeric delta and
coerce a missing or non-numeric current value to 0; `if`/`endif` do not
touch the state. -/
def applyVarOp (vars : VarState) (op : VariableOperation) : VarState :=
  match op.type with
  | .set =>
    match op.value with
    | some v => setVar vars op.name v
    | none => vars
  | .add =>
    match op.value with
    | some (.num d) =>
      let current : Int :=
        match lookupVar vars op.name with
        | some (.num n) => n
        | _ => 0
      setVar vars op.name (.num (current + d))
    | _ => vars
  | .sub =>
    match op.value with
    | some (.num d) =>
      let current : Int :=
        match lookupVar vars op.name with
        | some (.num n) => n
        | _ => 0
      setVar vars op.name (.num (current - d))
    | _ => vars
  | _ => vars

/-- The variable-state component of `processVariables`: fold the parsed
operation list over the state. -/
def processVariablesVars (text : List Char) (vars : VarState) : VarState :=
  (parseVariables text).foldl applyVarOp vars

/-- Spec-side reading of §4.3: a single left-to-right scan that collects
the `set`/`add`/`sub` directives in the textual order in which they occur,
to be folded over the state with the same per-operation semantics. -/
def parseMutatingTextual (s : List Char) : Option (VariableOperation × List Char) :=
  match parseSetAt s with
  | some r => some r
  | none =>
    match parseAddSubAt .add "\x7badd:".data s with
    | some r => some r
    | none => parseAddSubAt .sub "\x7bsub:".data s

/-- Spec-side reading of §4.3 `apply`: apply the `set`/`add`/`sub`
directives to the state in textual order. -/
def specApplyTextualOrder (text : List Char) (vars : VarState) : VarState :=
  (scanListF parseMutatingTextual (text.length + 1) text).foldl applyVarOp vars

/-- Generic model of `String.prototype.replace` with a `g`-flag regex: at
each position try the matcher; on a match emit the replacement and resume
after the consumed span, otherwise emit the character.  The Boolean
records whether any replacement happened. -/
def replaceScanBF (p : List Char → Option (List Char × List Char)) :
    Nat → List Char → List Char × Bool
  | _, [] => ([], false)
  | 0, cs => (cs, false)
  | f + 1, c :: cs =>
    match p (c :: cs) with
    | some (repl, rest) =>
      let r := replaceScanBF p f rest
      (repl ++ r.1, true)
    | none =>
      let r := replaceScanBF p f cs
      (c :: r.1, r.2)

/-- The lazy body of the editor's conditional regex, `([\s\S]*?)\{\/if\}`:
everything up to the first `\{/if\}`, or no match at all. -/
def splitAtCloser : List Char → Option (List Char × List Char)
  | [] => none
  | c :: cs =>
    match dropPrefixCI "\x7b/if\x7d".data (c :: cs) with
    | some rest => some ([], rest)
    | none =>
      match splitAtCloser cs with
      | some (body, rest) => some (c :: body, rest)
      | none => none

/-- The lazy body of the engine's innermost-block regex,
`((?:(?!\{if:)[\s\S])*?)\{\/if\}`: everything up to the first `\{/if\}`,
failing if another `\{if:` begins first. -/
def splitAtCloserNoIf : List Char → Option (List Char × List Char)
  | [] => none
  | c :: cs =>
    match dropPrefixCI "\x7b/if\x7d".data (c :: cs) with
    | some rest => some ([], rest)
    | none =>
      if (dropPrefixCI "\x7bif:".data (c :: cs)).isSome then none
      else
        match splitAtCloserNoIf cs with
        | some (body, rest) => some (c :: body, rest)
        | none => none

/-- Evaluate a matched conditional block: the body if the condition holds,
else the empty string. -/
def condReplacement (vars : VarState) (name : List Char)
    (cmp : Option (List Char × List Char)) (body : List Char) : List Char :=
  let compareValue :=
    match cmp with
    | some (_, v) => parseValue (trimStr v)
    | none => .bool true
  let op :=
    match cmp with
    | some (o, _) => o
    | none => "==".data
  if evaluateCondition vars name op compareValue then body else []

namespace Format

/-- One match of the editor's conditional regex
`\{if:(\w+)(?:(==|!=|>=|<=|>|<)([^}]+))?\}([\s\S]*?)\{\/if\}` at the
current position, already turned into its replacement. -/
def condMatchAt (vars : VarState) (s : List Char) :
    Option (List Char × List Char) :=
  match CYOA.parseIfHeaderAt s with
  | none => none
  | some (name, cmp, afterHdr) =>
    match CYOA.splitAtCloser afterHdr with
    | none => none
    | some (body, rest) => some (CYOA.condReplacement vars name cmp body, rest)

/-- `processConditionals` from `shared/format.ts`: a single global
regex-replacement pass. -/
def processConditionals (text : List Char) (vars : VarState) : List Char :=
  (CYOA.replaceScanBF (condMatchAt vars) (text.length + 1) text).1

end Format

namespace EngineVars

/-- One match of the engine's innermost-block regex at the current
position, already turned into its replacement. -/
def condMatchAt (vars : VarState) (s : List Char) :
    Option (List Char × List Char) :=
  match CYOA.parseIfHeaderAt s with
  | none => none
  | some (name, cmp, afterHdr) =>
    match CYOA.splitAtCloserNoIf afterHdr with
    | none => none
    | some (body, rest) => some (CYOA.condReplacement vars name cmp body, rest)

/-- One pass of the engine's `while (changed)` loop body: a global
replacement of innermost blocks, with the `changed` flag. -/
def enginePass (vars : VarState) (text : List Char) : List Char × Bool :=
  CYOA.replaceScanBF (condMatchAt vars) (text.length + 1) text

/-- The `while (changed)` loop.  The source loop is unbounded; each
changed pass strictly shrinks the text (proved below), so a fuel of the
text length plus one is enough and the wrapper below is exact. -/
def engineLoop (vars : VarState) : Nat → List Char → List Char
  | 0, text => text
  | f + 1, text =>
    let r := enginePass vars text
    if r.2 then engineLoop vars f r.1 else text

/-- `processConditionals` from the engine variables module: rewrite
innermost `\{if:...\}...\{/if\}` blocks to a fixed point. -/
def processConditionals (text : List Char) (vars : VarState) : List Char :=
  engineLoop vars (text.length + 1) text

end EngineVars

/-- The lazy name capture of the asset regex
`\{([^}:]+?)(?::(\w+))?\}`: the characters before the first `:` or `\}`,
together with that delimiter and the rest. -/
def splitAtColonOrBrace : List Char → Option (List Char × Char × List Char)
  | [] => none
  | c :: cs =>
    if c = ':' ∨ c = '\x7d' then some ([], c, cs)
    else
      match splitAtColonOrBrace cs with
      | some (nm, d, r) => some (c :: nm, d, r)
      | none => none

/-- Match the asset regex `\{([^}:]+?)(?::(\w+))?\}` at the current
position, returning the name, the optional size capture and the rest. -/
def parseAssetAt (s : List Char) :
    Option ((List Char × Option (List Char)) × List Char) :=
  match s with
  | '\x7b' :: r0 =>
    match splitAtColonOrBrace r0 with
    | none => none
    | some ([], _, _) => none
    | some (name, d, r1) =>
      if d = '\x7d' then some ((name, none), r1)
      else
        let sz := r1.takeWhile isWordChar
        match sz, r1.dropWhile isWordChar with
        | _ :: _, '\x7d' :: r2 => some ((name, some sz), r2)
        | _, _ => none
  | _ => none

/-- The command-keyword test of `markAssets` in `shared/format.ts`,
verbatim: a chain of `startsWith` checks against `set:` … `stop:` plus an
equality check against `/if`.  (The name capture can never contain `:`,
so only the `/if` check can succeed.) -/
def markAssetsSkip (assetName : List Char) : Bool :=
  "set:".data.isPrefixOf assetName ||
    "add:".data.isPrefixOf assetName ||
    "sub:".data.isPrefixOf assetName ||
    "if:".data.isPrefixOf assetName ||
    "music:".data.isPrefixOf assetName ||
    "sfx:".data.isPrefixOf assetName ||
    "ambient:".data.isPrefixOf assetName ||
    "goto:".data.isPrefixOf assetName ||
    "stop:".data.isPrefixOf assetName ||
    assetName = "/if".data

/-- The placeholder markup emitted by `markAssets`. -/
def assetPlaceholder (assetName : List Char) (size : Option (List Char)) :
    List Char :=
  let sizeClass :=
    match size with
    | some sz => "size-".data ++ sz
    | none => []
  "<span class=\"asset-placeholder\" data-asset=\"".data ++ assetName ++
    "\" data-size=\"".data ++ sizeClass ++ "\"></span>".data

/-- One match of the asset regex turned into its `markAssets`
replacement: the original span when the skip test fires, otherwise the
placeholder markup. -/
def markAssetMatchAt (s : List Char) : Option (List Char × List Char) :=
  match parseAssetAt s with
  | none => none
  | some ((name, size), rest) =>
    let span := s.take (s.length - rest.length)
    if markAssetsSkip name then some (span, rest)
    else some (assetPlaceholder name size, rest)

/-- `markAssets` from `shared/format.ts`. -/
def markAssets (text : List Char) : List Char :=
  (replaceScanBF markAssetMatchAt (text.length + 1) text).1

/-- The command-keyword test of `extractAssetReferences` in
`editor/pages.ts`, verbatim: `name.includes(':')`, equality with `/if`,
and `startsWith(cmd + ':')` over the keyword list.  (Again the capture
can never contain `:`.) -/
def extractAssetSkip (name : List Char) : Bool :=
  name.contains ':' || name = "/if".data ||
    (["set", "add", "sub", "if", "music", "sfx", "ambient", "goto",
      "stop"].map String.data).any
      fun cmd => (cmd ++ ':' :: []).isPrefixOf name

/-- One step of the `extractAssetReferences` exec loop: a match yields
its name unless the skip test `continue`s past it. -/
def extractAssetMatchAt (s : List Char) :
    Option (Option (List Char) × List Char) :=
  match parseAssetAt s with
  | none => none
  | some ((name, _), rest) =>
    if extractAssetSkip name then some (none, rest) else some (some name, rest)

/-- `extractAssetReferences` from `editor/pages.ts`. -/
def extractAssetReferences (text : List Char) : List (List Char) :=
  (scanListF extractAssetMatchAt (text.length + 1) text).reduceOption

/-- The tail `\s*(.+)$` of the choice-line regexes under the `m` flag:
`\s` may cross newlines, `.` may not, and `$` holds before a newline or at
the end.  Returns the `(.+)` capture and the rest of the text after the
match end.  When everything left is whitespace, the greedy `\s*` gives
back the character after the last newline (if any) to `.+`. -/
def matchBodyTail (r : List Char) : Option (List Char × List Char) :=
  match r.dropWhile isWsChar with
  | c :: r1 =>
    some ((c :: r1).takeWhile (fun d => d ≠ '\n'),
      (c :: r1).dropWhile fun d => d ≠ '\n')
  | [] =>
    let k := (r.reverse.takeWhile fun d => d = '\n').length
    if h : r.length - k = 0 then none
    else some ([r.getLast (by intro he; simp [he] at h)].take 1, r.drop (r.length - k))

/-- An extracted choice, as in `extractChoices` (`shared/format.ts`). -/
structure ExtractedChoice : Type where
  letter : Char
  text : List Char
  goto : Option (List Char) := none
deriving DecidableEq, Repr

/-- Match the choice-line pattern
`([a-e])\)\s*(?:\[(\d+[a-e]*)\]\s*)?(.+)$` (case-insensitive, `m` flag)
at the current position, which the caller guarantees is a line start.
The optional bracket group is attempted at the end of the whitespace run
(where alone a `[` can sit) and abandoned as a whole if it cannot be
completed and followed by a body. -/
def matchChoiceAt (s : List Char) : Option (ExtractedChoice × List Char) :=
  match s with
  | c :: ')' :: r1 =>
    if isChoiceLetter c then
      let fallback :=
        match matchBodyTail r1 with
        | some (x, rest) =>
          some (⟨jsToLower c, trimStr x, none⟩, rest)
        | none => none
      match r1.dropWhile isWsChar with
      | '[' :: r3 =>
        let ds := r3.takeWhile isDigitC
        let r4 := r3.dropWhile isDigitC
        let ls := r4.takeWhile isChoiceLetter
        match ds, r4.dropWhile isChoiceLetter with
        | _ :: _, ']' :: r6 =>
          match matchBodyTail r6 with
          | some (x, rest) =>
            some (⟨jsToLower c, trimStr x, some ((ds ++ ls).map jsToLower)⟩, rest)
          | none => fallback
        | _, _ => fallback
      | _ => fallback
    else none
  | _ => none

/-- The `exec` loop of `extractChoices` over the whole text: matches may
only start at line starts. -/
def extractLoopF : Nat → Bool → List Char → List ExtractedChoice
  | 0, _, _ => []
  | _ + 1, _, [] => []
  | f + 1, atStart, c :: cs =>
    if atStart then
      match matchChoiceAt (c :: cs) with
      | some (ch, rest) => ch :: extractLoopF f false rest
      | none => extractLoopF f (c = '\n') cs
    else extractLoopF f (c = '\n') cs

/-- The removal pass of `extractChoices` (`text.replace(pattern, '')`
with the same pattern, capture-free). -/
def removeChoiceLinesF : Nat → Bool → List Char → List Char
  | 0, _, cs => cs
  | _ + 1, _, [] => []
  | f + 1, atStart, c :: cs =>
    if atStart then
      match matchChoiceAt (c :: cs) with
      | some (_, rest) => removeChoiceLinesF f false rest
      | none => c :: removeChoiceLinesF f (c = '\n') cs
    else c :: removeChoiceLinesF f (c = '\n') cs

/-- `extractChoices` from `shared/format.ts`: collect the choice-line
matches and remove the matched spans from the story text, trimming the
remainder. -/
def extractChoices (text : List Char) :
    List Char × List ExtractedChoice :=
  (trimStr (removeChoiceLinesF (text.length + 1) true text),
    extractLoopF (text.length + 1) true text)

/-- The tail `\s*(.+)$` of `parseChoiceLine`, whose regex has no `m`
flag: `$` holds only at the very end of the string. -/
def matchBodyTailEOS (r : List Char) : Option (List Char) :=
  match r.dropWhile isWsChar with
  | c :: r1 =>
    if (c :: r1).dropWhile (fun d => d ≠ '\n') = [] then
      some ((c :: r1).takeWhile fun d => d ≠ '\n')
    else none
  | [] =>
    match r.reverse with
    | [] => none
    | c :: _ => if c = '\n' then none else some [c]

/-- A parsed choice line, as in `parseChoiceLine` (`shared/utils.ts`). -/
structure ParsedChoice : Type where
  letter : Char
  text : List Char
  goto : Option (List Char) := none
deriving DecidableEq, Repr

/-- `parseChoiceLine` from `shared/utils.ts`:
`^([a-e])\)\s*(?:\[(\d+[a-e]*)\]\s*)?(.+)$` (case-insensitive, no `m`). -/
def parseChoiceLine (line : List Char) : Option ParsedChoice :=
  match line with
  | c :: ')' :: r1 =>
    if isChoiceLetter c then
      let fallback :=
        match matchBodyTailEOS r1 with
        | some x => some (⟨jsToLower c, trimStr x, none⟩ : ParsedChoice)
        | none => none
      match r1.dropWhile isWsChar with
      | '[' :: r3 =>
        let ds := r3.takeWhile isDigitC
        let r4 := r3.dropWhile isDigitC
        let ls := r4.takeWhile isChoiceLetter
        match ds, r4.dropWhile isChoiceLetter with
        | _ :: _, ']' :: r6 =>
          match matchBodyTailEOS r6 with
          | some x =>
            some ⟨jsToLower c, trimStr x, some ((ds ++ ls).map jsToLower)⟩
          | none => fallback
        | _, _ => fallback
      | _ => fallback
    else none
  | _ => none

/-- The parsed form of a page id, `ParsedPageId` in the source. -/
structure ParsedPageId : Type where
  num : Nat
  path : List Char
deriving DecidableEq, Repr

/-- `parseInt(ds, 10)` on a digit string (exact; the JS float loses
precision only beyond 2^53, far outside story-page ranges). -/
def natOfDigits (ds : List Char) : Nat :=
  ds.foldl (fun a c => 10 * a + (c.toNat - '0'.toNat)) 0

/-- `parsePageId` from `shared/utils.ts`: `^(\d+)([a-e]*)$` with the `i`
flag, path normalized to lower case. -/
def parsePageId (id : List Char) : Option ParsedPageId :=
  let ds := id.takeWhile isDigitC
  let rest := id.dropWhile isDigitC
  if ds ≠ [] ∧ rest.all isChoiceLetter then
    some ⟨natOfDigits ds, rest.map jsToLower⟩
  else none

/-- The digit character for a value below 10. -/
def digitChar (d : Nat) : Char := Char.ofNat ('0'.toNat + d)

/-- Decimal printing of a natural number, with fuel (any fuel above the
number is enough). -/
def digitsOfFuel : Nat → Nat → List Char
  | 0, _ => []
  | f + 1, n =>
    if n < 10 then [digitChar n] else digitsOfFuel f (n / 10) ++ [digitChar (n % 10)]

/-- Decimal printing of a natural number, as JS template interpolation
`${n}` prints it. -/
def natToString (n : Nat) : List Char := digitsOfFuel (n + 1) n

/-- `formatSaveCode` from `shared/format.ts`. -/
def formatSaveCode (page : Nat) (path : List Char) : List Char :=
  if page = 1 ∧ path = [] then ['1'] else natToString page ++ path

/-- `getChildIds` from `shared/utils.ts`: letter-to-id mapping
`(letter, `${num+1}${path}${letter}`)` for the first `choiceCount`
letters (entry order, as `Object.values` preserves it). -/
def getChildIds (pageId : List Char) (choiceCount : Nat) :
    List (Char × List Char) :=
  match parsePageId pageId with
  | none => []
  | some parsed =>
    ("abcde".data.take choiceCount).map fun letter =>
      (letter, natToString (parsed.num + 1) ++ parsed.path ++ [letter])

/-- The largest page number among the parseable keys of a page
collection. -/
def maxPageNum (pages : List (List Char)) : Nat :=
  (pages.filterMap fun k => (parsePageId k).map ParsedPageId.num).foldr max 0

/-- The `while (queue.length > 0)` loop of `getDescendants`: dequeue,
push the existing children onto both the result and the queue.  The
source loop is unbounded; the fuel below is shown sufficient. -/
def descLoop (pages : List (List Char)) :
    Nat → List (List Char) → List (List Char) → List (List Char)
  | 0, _, acc => acc
  | _ + 1, [], acc => acc
  | f + 1, cur :: rest, acc =>
    let children :=
      ((getChildIds cur 5).map Prod.snd).filter fun cid => pages.contains cid
    descLoop pages f (rest ++ children) (acc ++ children)

/-- `getDescendants` from `shared/utils.ts` (with the default
`maxChoices = 5` its caller uses).  Page existence is all the loop reads
from the collection, so the collection is its key list here.  Every
dequeue strictly decreases `Σ 6^(maxPageNum+1-num)` over the queue, so
the chosen fuel is exact (proved below). -/
def getDescendants (pageId : List Char) (pages : List (List Char)) :
    List (List Char) :=
  descLoop pages (6 ^ (maxPageNum pages + 1)) [pageId] []

/-- The ids actually enqueued for one dequeued id: the child ids that
exist in the collection (the loop body's `children.filter`). -/
def descChildren (pages : List (List Char)) (cur : List Char) :
    List (List Char) :=
  ((getChildIds cur 5).map Prod.snd).filter fun cid => pages.contains cid

/-- The page number of an id, `0` when unparseable (used only by the
termination measure of the `getDescendants` queue). -/
def pageNumOf (q : List Char) : Nat :=
  match parsePageId q with
  | some p => p.num
  | none => 0

/-- The weight of one queue entry in the termination measure. -/
def descWeight (B : Nat) (q : List Char) : Nat := 6 ^ (B + 1 - pageNumOf q)

/-- The termination measure of the `getDescendants` queue; it strictly
decreases at every dequeue. -/
def descMeasure (B : Nat) (queue : List (List Char)) : Nat :=
  (queue.map (descWeight B)).sum

/-- `StoryMetadata`. -/
structure StoryMetadata : Type where
  title : List Char
  author : List Char
  description : List Char
deriving DecidableEq, Repr

/-- `PlayerState` from the engine player module. -/
structure PlayerState : Type where
  currentPage : Int
  currentPath : List Char
  choiceLog : List (List Char)
  vars : VarState
  storyFolder : List Char
  isPlaying : Bool
  metadata : Option StoryMetadata := none
deriving DecidableEq, Repr

/-- `makeChoice` from the engine player module.  `if (gotoPage)` is JS
truthiness: an absent or empty string falls through. -/
def makeChoice (state : PlayerState) (letter : List Char)
    (gotoPage : Option (List Char) := none) : PlayerState :=
  let newLog := state.choiceLog ++ [letter]
  let standard : PlayerState :=
    { state with
      currentPage := state.currentPage + 1
      currentPath := state.currentPath ++ letter
      choiceLog := newLog }
  match gotoPage with
  | some g =>
    if g ≠ [] then
      match parsePageId g with
      | some parsed =>
        { state with
          currentPage := (parsed.num : Int)
          currentPath := parsed.path
          choiceLog := newLog }
      | none => standard
    else standard
  | none => standard

/-- A choice record of a `Page`. -/
structure PageChoice : Type where
  letter : List Char
  text : List Char
  goto : Option (List Char) := none
deriving DecidableEq, Repr

/-- A `Page` record, as used by the graph builder. -/
structure Page : Type where
  content : List Char
  hasChoices : Bool
  isEnding : Bool
  choices : List PageChoice
deriving DecidableEq, Repr

/-- A page collection `Record<string, Page>`, in entry order. -/
abbrev PageMap : Type := List (List Char × Page)

/-- Property read `pages[id]`. -/
def lookupPage (pages : PageMap) (id : List Char) : Option Page :=
  match pages with
  | [] => none
  | (k, v) :: rest => if k = id then some v else lookupPage rest id

/-- A choice's effective target `choice.goto || computed default`
(`||` is JS truthiness: an empty-string `goto` falls back too). -/
def effectiveTarget (parsed : ParsedPageId) (choice : PageChoice) : List Char :=
  let fallback := natToString (parsed.num + 1) ++ parsed.path ++ choice.letter
  match choice.goto with
  | some g => if g ≠ [] then g else fallback
  | none => fallback

/-- The queue pushes performed for one visited page in the reachability
loop of `buildGraphData`. -/
def reachPushes (pages : PageMap) (current : List Char) (page : Page) :
    List (List Char) :=
  if page.hasChoices ∧ ¬page.isEnding then
    page.choices.filterMap fun choice =>
      match parsePageId current with
      | none => none
      | some parsed =>
        let targetId := effectiveTarget parsed choice
        if (lookupPage pages targetId).isSome then some targetId else none
  else if ¬page.isEnding then
    match parsePageId current with
    | none => []
    | some parsed =>
      let nextId := natToString (parsed.num + 1) ++ parsed.path
      if (lookupPage pages nextId).isSome then [nextId] else []
  else []

/-- The reachability loop of `buildGraphData`
(`while (queue.length > 0) ...` with a visited set).  The source loop is
unbounded; each page is expanded at most once and each expansion pushes
at most its choice count (or one), so the fuel used by
`reachableFromRoot` bounds the number of iterations. -/
def reachLoop (pages : PageMap) :
    Nat → List (List Char) → List (List Char) → List (List Char)
  | 0, _, visited => visited
  | _ + 1, [], visited => visited
  | f + 1, cur :: rest, visited =>
    match lookupPage pages cur with
    | none => reachLoop pages f rest visited
    | some page =>
      if visited.contains cur then reachLoop pages f rest visited
      else
        reachLoop pages f (rest ++ reachPushes pages cur page) (visited ++ [cur])

/-- The set of pages reachable from page `1`, as `buildGraphData`
computes it. -/
def reachableFromRoot (pages : PageMap) : List (List Char) :=
  reachLoop pages (1 + (pages.map fun e => e.2.choices.length + 1).sum)
    ["1".data] []

/-- Node classification in `buildGraphData`: `ending` first, then
`choice`, and only then the reachability test for `orphan`. -/
inductive NodeType : Type where
  | normal | choice | ending | orphan
deriving DecidableEq, Repr

/-- The `let type` chain of `buildGraphData`, verbatim. -/
def classifyNode (page : Page) (isReachable : Bool) : NodeType :=
  if page.isEnding then .ending
  else if page.hasChoices then .choice
  else if ¬isReachable then .orphan
  else .normal

/-- A graph node of `buildGraphData`. -/
structure GraphNode : Type where
  id : List Char
  label : List Char
  type : NodeType
deriving DecidableEq, Repr

/-- A graph edge of `buildGraphData`. -/
structure GraphEdge : Type where
  source : List Char
  target : List Char
  label : Option (List Char) := none
deriving DecidableEq, Repr

/-- The node list of `buildGraphData`: one node per entry, classified
against the computed reachable set. -/
def buildGraphNodes (pages : PageMap) : List GraphNode :=
  let reachable := reachableFromRoot pages
  pages.map fun e => ⟨e.1, e.1, classifyNode e.2 (reachable.contains e.1)⟩

/-- The edge list of `buildGraphData`: one labelled edge per non-blank
choice with an existing effective target, one unlabelled continuation
edge per non-ending, non-choice page with an existing continuation. -/
def buildGraphEdges (pages : PageMap) : List GraphEdge :=
  pages.flatMap fun e =>
    let id := e.1
    let page := e.2
    if page.isEnding then []
    else
      match parsePageId id with
      | none => []
      | some parsed =>
        if page.hasChoices then
          page.choices.filterMap fun choice =>
            if trimStr choice.text = [] then none
            else
              let targetId := effectiveTarget parsed choice
              if (lookupPage pages targetId).isSome then
                some ⟨id, targetId, some choice.letter⟩
              else none
        else
          let nextId := natToString (parsed.num + 1) ++ parsed.path
          if (lookupPage pages nextId).isSome then [⟨id, nextId, none⟩] else []

/-- `buildGraphData` from the graph module: nodes and edges. -/
def buildGraphData (pages : PageMap) : List GraphNode × List GraphEdge :=
  (buildGraphNodes pages, buildGraphEdges pages)

/-- The page-id grammar of the spec, `^[0-9]+[a-e]*$` case-insensitively:
a nonempty digit block followed by choice letters. -/
def PageIdGrammar (s : List Char) : Prop :=
  ∃ ds ls, s = ds ++ ls ∧ ds ≠ [] ∧ (∀ c ∈ ds, isDigitC c = true) ∧
    ∀ c ∈ ls, isChoiceLetter c = true

/-- The comparison operator and raw value that the conditional-header
regex reads from a given header tail (the characters between the variable
name and the closing brace), together with the guarantee that it consumes
the whole tail.  What follows the brace cannot change this (proved
below), so it is computed against a bare closing brace. -/
def tailParse (tail : List Char) : Option (List Char × List Char) :=
  (tryCmpOps cmpOps (tail ++ ['\x7d'])).map fun t => (t.1, t.2.1)

/-- A conditional-free or single-conditional segment of a text: either a
plain stretch or one complete `\{if:...\}body\{/if\}` block. -/
inductive CondSeg : Type where
  | plain : List Char → CondSeg
  | block : List Char → List Char → List Char → CondSeg
deriving DecidableEq, Repr

/-- Render a segment back to text. -/
def renderSeg : CondSeg → List Char
  | .plain s => s
  | .block name tail body =>
    '\x7b' :: 'i' :: 'f' :: ':' ::
      (name ++ (tail ++ '\x7d' ::
        (body ++ ('\x7b' :: '/' :: 'i' :: 'f' :: '\x7d' :: []))))

/-- Render a segment list. -/
def renderSegs (segs : List CondSeg) : List Char :=
  (segs.map renderSeg).flatten

/-- Well-formedness of a segment: plain stretches and block bodies are
brace-free, the block name is a nonempty word, and the header tail is
empty or a comparison the header regex accepts in full. -/
def SegOK : CondSeg → Prop
  | .plain s => '\x7b' ∉ s
  | .block name tail body =>
    name ≠ [] ∧ (∀ c ∈ name, isWordChar c = true) ∧ '\x7b' ∉ body ∧
      '\x7d' ∉ tail ∧ (tail.head?.all fun c => !isWordChar c) = true ∧
      (tail = [] ∨ (tailParse tail).isSome)

instance (seg : CondSeg) : Decidable (SegOK seg) :=
  match seg with
  | .plain s => inferInstanceAs (Decidable ('\x7b' ∉ s))
  | .block name tail body =>
    inferInstanceAs (Decidable (name ≠ [] ∧ (∀ c ∈ name, isWordChar c = true) ∧
      '\x7b' ∉ body ∧ '\x7d' ∉ tail ∧
      (tail.head?.all fun c => !isWordChar c) = true ∧
      (tail = [] ∨ (tailParse tail).isSome)))

/-- The one-pass result for a segment: plain stretches stay, blocks
become their evaluated replacement. -/
def segOut (vars : VarState) : CondSeg → List Char
  | .plain s => s
  | .block name tail body => condReplacement vars name (tailParse tail) body

/-- Whether a segment is a conditional block. -/
def isBlockSeg : CondSeg → Bool
  | .block _ _ _ => true
  | .plain _ => false

/-! ## Theorems -/

/-- C5: with the variable absent from the state, `evaluateCondition`
returns true exactly for `!=`, or for `==` against the boolean `false`;
every other operator — in particular each of the four orderings, against
any value — returns false without error. -/
theorem evaluateCondition_absent (vars : VarState) (name operator : List Char)
    (compareValue : VarValue) (h : lookupVar vars name = none) :
    evaluateCondition vars name operator compareValue =
      (operator = "!=".data ||
        (operator = "==".data && compareValue = VarValue.bool false)) ∧
    (operator ∈ [">".data, "<".data, ">=".data, "<=".data] →
      evaluateCondition vars name operator compareValue = false) := by
  refine ⟨by rw [evaluateCondition, h], fun hop => ?_⟩
  rw [evaluateCondition, h]
  simp only [List.mem_cons, List.not_mem_nil, or_false] at hop
  rcases hop with rfl | rfl | rfl | rfl <;> rfl

/-- Witness for `evaluateCondition_absent`: the unset variable `x`
compared with `>` against 0 yields false. -/
theorem evaluateCondition_absent_witness :
    lookupVar [] "x".data = none ∧
    evaluateCondition [] "x".data ">".data (VarValue.num 0) = false :=
  ⟨rfl, (evaluateCondition_absent [] "x".data ">".data (VarValue.num 0) rfl).2
    (by decide)⟩

/-- C10: `makeChoice` is total; it always appends the letter to the
choice log and leaves the variables, story folder, playing flag and
metadata untouched; an absent or unparseable `gotoPage` yields the
standard progression (page + 1, letter appended to the path), a parseable
one jumps to the parsed number and path. -/
theorem makeChoice_spec (state : PlayerState) (letter : List Char)
    (gotoPage : Option (List Char)) :
    (makeChoice state letter gotoPage).choiceLog = state.choiceLog ++ [letter] ∧
    (makeChoice state letter gotoPage).vars = state.vars ∧
    (makeChoice state letter gotoPage).storyFolder = state.storyFolder ∧
    (makeChoice state letter gotoPage).isPlaying = state.isPlaying ∧
    (makeChoice state letter gotoPage).metadata = state.metadata ∧
    ((∀ g, gotoPage = some g → parsePageId g = none) →
      (makeChoice state letter gotoPage).currentPage = state.currentPage + 1 ∧
      (makeChoice state letter gotoPage).currentPath = state.currentPath ++ letter) ∧
    (∀ g parsed, gotoPage = some g → parsePageId g = some parsed →
      (makeChoice state letter gotoPage).currentPage = (parsed.num : Int) ∧
      (makeChoice state letter gotoPage).currentPath = parsed.path) := by
  cases gotoPage with
  | none =>
    refine ⟨by simp [makeChoice], by simp [makeChoice], by simp [makeChoice],
      by simp [makeChoice], by simp [makeChoice],
      fun _ => by simp [makeChoice],
      fun g parsed hg _ => by cases hg⟩
  | some g =>
    by_cases hg : g = []
    · subst hg
      refine ⟨by simp [makeChoice], by simp [makeChoice], by simp [makeChoice],
        by simp [makeChoice], by simp [makeChoice],
        fun _ => by simp [makeChoice],
        fun g' parsed hg' hp' => ?_⟩
      injection hg' with h
      subst h
      simp [parsePageId] at hp'
    · cases hp : parsePageId g with
      | none =>
        refine ⟨by simp [makeChoice, hg, hp], by simp [makeChoice, hg, hp],
          by simp [makeChoice, hg, hp], by simp [makeChoice, hg, hp],
          by simp [makeChoice, hg, hp],
          fun _ => by simp [makeChoice, hg, hp],
          fun g' parsed hg' hp' => ?_⟩
        injection hg' with h
        subst h
        rw [hp] at hp'
        cases hp'
      | some parsed =>
        refine ⟨by simp [makeChoice, hg, hp], by simp [makeChoice, hg, hp],
          by simp [makeChoice, hg, hp], by simp [makeChoice, hg, hp],
          by simp [makeChoice, hg, hp],
          fun hnone => absurd (hnone g rfl) (by simp [hp]),
          fun g' parsed' hg' hp' => ?_⟩
        injection hg' with h
        subst h
        rw [hp] at hp'
        injection hp' with h2
        subst h2
        exact ⟨by simp [makeChoice, hg, hp], by simp [makeChoice, hg, hp]⟩

/-- Witness for `makeChoice_spec`: choosing `a` with goto `3ab` jumps to
page 3, path `ab`, and logs the letter. -/
theorem makeChoice_spec_witness :
    parsePageId "3ab".data = some ⟨3, "ab".data⟩ ∧
    (makeChoice ⟨1, [], [], [], [], true, none⟩ "a".data
        (some "3ab".data)).currentPage = 3 ∧
    (makeChoice ⟨1, [], [], [], [], true, none⟩ "a".data
        (some "3ab".data)).currentPath = "ab".data :=
  ⟨by decide,
    ((makeChoice_spec ⟨1, [], [], [], [], true, none⟩ "a".data
        (some "3ab".data)).2.2.2.2.2.2 "3ab".data ⟨3, "ab".data⟩ rfl
      (by decide)).1,
    ((makeChoice_spec ⟨1, [], [], [], [], true, none⟩ "a".data
        (some "3ab".data)).2.2.2.2.2.2 "3ab".data ⟨3, "ab".data⟩ rfl
      (by decide)).2⟩

/-- C4 (code bug): the asset scanners do convert keyword-directive spans.
The skip checks compare the name capture against `keyword:` prefixes, but
the capture can never contain `:`, so `\{goto:3ab\}`, `\{add:gold\}` and
`\{if:flag\}` are reported as assets named `goto`, `add` and `if`.  The
spec's two examples happen to hold: `\{music:theme.mp3\}` escapes only
because `.` is not a word character, and `\{cave.png\}` is an asset. -/
theorem assetScan_keyword_spans :
    markAssets "\x7bgoto:3ab\x7d".data =
      assetPlaceholder "goto".data (some "3ab".data) ∧
    extractAssetReferences "\x7badd:gold\x7d".data = ["add".data] ∧
    extractAssetReferences "\x7bif:flag\x7d".data = ["if".data] ∧
    markAssets "\x7bmusic:theme.mp3\x7d".data = "\x7bmusic:theme.mp3\x7d".data ∧
    extractAssetReferences "\x7bmusic:theme.mp3\x7d".data = [] ∧
    markAssets "\x7bcave.png\x7d".data = assetPlaceholder "cave.png".data none ∧
    markAssets "\x7b/if\x7d".data = "\x7b/if\x7d".data := by
  refine ⟨by decide, by decide, by decide, by decide, by decide, by decide,
    by decide⟩

/-- Every element collected by a scan comes from a successful match. -/
theorem scanListF_mem {p : List Char → Option (α × List Char)} {f : Nat}
    {cs : List Char} {a : α} (h : a ∈ scanListF p f cs) :
    ∃ s r, p s = some (a, r) := by
  induction f generalizing cs with
  | zero => simp [scanListF] at h
  | succ f ih =>
    cases cs with
    | nil => simp [scanListF] at h
    | cons c cs =>
      rw [scanListF] at h
      cases hp : p (c :: cs) with
      | none =>
        rw [hp] at h
        exact ih h
      | some pr =>
        rw [hp] at h
        rcases List.mem_cons.mp h with rfl | h2
        · exact ⟨c :: cs, pr.2, by rw [hp]⟩
        · exact ih h2

/-- The `if` arm of `parseVariables` only produces `if` operations. -/
theorem parseIfOpAt_type {s : List Char} {op : VariableOperation}
    {r : List Char} (h : parseIfOpAt s = some (op, r)) :
    op.type = VarOpType.ifStart := by
  unfold parseIfOpAt at h
  split at h
  · cases h
  · simp only [Option.some.injEq, Prod.mk.injEq] at h
    rcases h with ⟨rfl, rfl⟩
    rfl
  · simp only [Option.some.injEq, Prod.mk.injEq] at h
    rcases h with ⟨rfl, rfl⟩
    rfl

/-- The `\{/if\}` arm of `parseVariables` only produces `endif`
operations. -/
theorem parseEndifAt_type {s : List Char} {op : VariableOperation}
    {r : List Char} (h : parseEndifAt s = some (op, r)) :
    op.type = VarOpType.endif := by
  unfold parseEndifAt at h
  split at h
  · cases h
  · simp only [Option.some.injEq, Prod.mk.injEq] at h
    rcases h with ⟨rfl, rfl⟩
    rfl

/-- `if`/`endif` operations do not touch the state. -/
theorem foldl_applyVarOp_noop {l : List VariableOperation}
    (h : ∀ op ∈ l, op.type = VarOpType.ifStart ∨ op.type = VarOpType.endif)
    (v : VarState) : l.foldl applyVarOp v = v := by
  induction l generalizing v with
  | nil => rfl
  | cons op l ih =>
    have hop : applyVarOp v op = v := by
      rcases h op (List.mem_cons_self ..) with h1 | h1 <;>
        simp [applyVarOp, h1]
    rw [List.foldl_cons, hop]
    exact ih (fun o ho => h o (List.mem_cons_of_mem _ ho)) v

/-- C1 (amended): the state result of `processVariables` applies the
directives grouped by kind — every `set` (in textual order), then every
`add`, then every `sub` — not in overall textual order; `set` overwrites
with the exact typed value, while `add`/`sub` coerce an absent or
non-numeric current value to 0. -/
theorem processVariables_grouped (text : List Char) (vars : VarState) :
    processVariablesVars text vars =
      (scanListF (parseAddSubAt .sub "\x7bsub:".data) (text.length + 1)
        text).foldl applyVarOp
        ((scanListF (parseAddSubAt .add "\x7badd:".data) (text.length + 1)
          text).foldl applyVarOp
          ((scanListF parseSetAt (text.length + 1) text).foldl applyVarOp
            vars)) ∧
    (∀ v name value,
      applyVarOp v ⟨.set, name, some value, none⟩ = setVar v name value) ∧
    (∀ v name d, lookupVar v name = none →
      applyVarOp v ⟨.add, name, some (.num d), none⟩ =
        setVar v name (.num d) ∧
      applyVarOp v ⟨.sub, name, some (.num d), none⟩ =
        setVar v name (.num (-d))) ∧
    (∀ v name w d, lookupVar v name = some (.str w) →
      applyVarOp v ⟨.add, name, some (.num d), none⟩ =
        setVar v name (.num d)) ∧
    (∀ v name b d, lookupVar v name = some (.bool b) →
      applyVarOp v ⟨.add, name, some (.num d), none⟩ =
        setVar v name (.num d)) ∧
    (∀ v name n d, lookupVar v name = some (.num n) →
      applyVarOp v ⟨.add, name, some (.num d), none⟩ =
        setVar v name (.num (n + d))) := by
  refine ⟨?_, ?_, ?_, ?_, ?_, ?_⟩
  · unfold processVariablesVars parseVariables
    rw [List.foldl_append, List.foldl_append, List.foldl_append,
      List.foldl_append]
    rw [foldl_applyVarOp_noop fun op hop => ?hend]
    case hend =>
      obtain ⟨s, r, hs⟩ := scanListF_mem hop
      exact Or.inr (parseEndifAt_type hs)
    rw [foldl_applyVarOp_noop fun op hop => ?hif]
    case hif =>
      obtain ⟨s, r, hs⟩ := scanListF_mem hop
      exact Or.inl (parseIfOpAt_type hs)
  · intro v name value
    rfl
  · intro v name d h
    exact ⟨by simp [applyVarOp, h], by simp [applyVarOp, h]⟩
  · intro v name w d h
    simp [applyVarOp, h]
  · intro v name b d h
    simp [applyVarOp, h]
  · intro v name n d h
    simp [applyVarOp, h]

/-- Witness for `processVariables_grouped`: a state where `hp` holds the
string `"full"`; `\{add:hp=2\}` coerces it to 0 and stores 2. -/
theorem processVariables_grouped_witness :
    lookupVar [("hp".data, VarValue.str "full".data)] "hp".data =
      some (VarValue.str "full".data) ∧
    applyVarOp [("hp".data, VarValue.str "full".data)]
        ⟨.add, "hp".data, some (.num 2), none⟩ =
      setVar [("hp".data, VarValue.str "full".data)] "hp".data
        (.num 2) :=
  ⟨rfl, (processVariables_grouped [] []).2.2.2.1
    [("hp".data, VarValue.str "full".data)] "hp".data "full".data 2 rfl⟩

/-- C1 (counterexample): on `\{add:x\}\{set:x=5\}` from the empty state
the code yields `x = 6` (all `set`s are applied before any `add`),
while textual-order application yields `x = 5`. -/
theorem processVariables_textual_order_cex :
    specApplyTextualOrder "\x7badd:x\x7d\x7bset:x=5\x7d".data [] =
      [("x".data, VarValue.num 5)] ∧
    processVariablesVars "\x7badd:x\x7d\x7bset:x=5\x7d".data [] =
      [("x".data, VarValue.num 6)] ∧
    processVariablesVars "\x7badd:x\x7d\x7bset:x=5\x7d".data [] ≠
      specApplyTextualOrder "\x7badd:x\x7d\x7bset:x=5\x7d".data [] :=
  ⟨by decide, by decide, by decide⟩

/-- C2 (amended): `buildGraphData` classifies each page by the chain
`ending`, then `choice`, and only then `orphan` for unreachable pages:
`ending` and `choice` take precedence over `orphan`, so only a plain page
(neither ending nor choice) that is unreachable is an orphan. -/
theorem buildGraph_classification (pages : PageMap) :
    (buildGraphData pages).1 =
      pages.map (fun e =>
        ⟨e.1, e.1, classifyNode e.2 ((reachableFromRoot pages).contains e.1)⟩) ∧
    (∀ page r, page.isEnding = true → classifyNode page r = .ending) ∧
    (∀ page r, page.isEnding = false → page.hasChoices = true →
      classifyNode page r = .choice) ∧
    (∀ page, page.isEnding = false → page.hasChoices = false →
      classifyNode page false = .orphan) ∧
    (∀ page, page.isEnding = false → page.hasChoices = false →
      classifyNode page true = .normal) := by
  refine ⟨rfl, ?_, ?_, ?_, ?_⟩ <;> intros <;> simp [classifyNode, *]

/-- Witness for `buildGraph_classification`: an ending page is classified
`ending` even when unreachable. -/
theorem buildGraph_classification_witness :
    (⟨[], false, true, []⟩ : Page).isEnding = true ∧
    classifyNode ⟨[], false, true, []⟩ false = NodeType.ending :=
  ⟨rfl, (buildGraph_classification []).2.1 ⟨[], false, true, []⟩ false rfl⟩

/-- C2 (counterexample): with the single page `2` marked as an ending and
no page `1`, page `2` is unreachable yet classified `ending`, not
`orphan`. -/
theorem unreachable_ending_classified_ending :
    (buildGraphData [("2".data, ⟨[], false, true, []⟩)]).1 =
      [⟨"2".data, "2".data, NodeType.ending⟩] ∧
    ¬ "2".data ∈ reachableFromRoot [("2".data, ⟨[], false, true, []⟩)] ∧
    NodeType.ending ≠ NodeType.orphan :=
  ⟨by decide, by decide, by decide⟩

/-- `Char.ofNat` below 128 is exact. -/
theorem toNat_ofNat_lt {n : Nat} (h : n < 128) : (Char.ofNat n).toNat = n := by
  have hv : n < 55296 ∨ 57343 < n ∧ n < 1114112 := Or.inl (by omega)
  simp [Char.ofNat, hv, Char.ofNatAux, Char.toNat, UInt32.toNat]

/-- Digits are untouched by lower-casing. -/
theorem jsToLower_digit {c : Char} (h : isDigitC c = true) : jsToLower c = c := by
  simp only [isDigitC, decide_eq_true_eq, Bool.and_eq_true, decide_eq_true_iff] at h
  obtain ⟨h1, h2⟩ : ('0' : Char) ≤ c ∧ c ≤ '9' := by
    simpa [isDigitC] using h
  have hn : ¬('A' ≤ c ∧ c ≤ 'Z') := by
    rintro ⟨ha, _⟩
    have h2' : c.toNat ≤ 57 := h2
    have ha' : 65 ≤ c.toNat := ha
    omega
  simp [jsToLower, hn]

/-- Digit-hood of a character is a `toNat` interval. -/
theorem isDigitC_iff {c : Char} : isDigitC c = true ↔ 48 ≤ c.toNat ∧ c.toNat ≤ 57 := by
  constructor
  · intro h
    obtain ⟨h1, h2⟩ : ('0' : Char) ≤ c ∧ c ≤ '9' := by
      simpa [isDigitC] using h
    exact ⟨h1, h2⟩
  · rintro ⟨h1, h2⟩
    have e1 : ('0' : Char) ≤ c := h1
    have e2 : c ≤ '9' := h2
    simp [isDigitC]
    exact ⟨e1, e2⟩

/-- Choice letters stay choice letters, stay non-digits, and lower-casing
is idempotent on them. -/
theorem jsToLower_choice {c : Char} (h : isChoiceLetter c = true) :
    isChoiceLetter (jsToLower c) = true ∧ isDigitC (jsToLower c) = false ∧
    jsToLower (jsToLower c) = jsToLower c := by
  have h' : (97 ≤ c.toNat ∧ c.toNat ≤ 101) ∨ (65 ≤ c.toNat ∧ c.toNat ≤ 69) := by
    rcases (by simpa [isChoiceLetter] using h :
        (('a' : Char) ≤ c ∧ c ≤ 'e') ∨ (('A' : Char) ≤ c ∧ c ≤ 'E')) with
      ⟨h1, h2⟩ | ⟨h1, h2⟩
    · exact Or.inl ⟨h1, h2⟩
    · exact Or.inr ⟨h1, h2⟩
  rcases h' with ⟨h1, h2⟩ | ⟨h1, h2⟩
  · have hn : ¬(('A' : Char) ≤ c ∧ c ≤ 'Z') := by
      rintro ⟨_, hb⟩
      have hb' : c.toNat ≤ 90 := hb
      omega
    rw [jsToLower, if_neg hn]
    refine ⟨h, ?_, ?_⟩
    · rw [isDigitC]
      simp only [decide_eq_false_iff_not]
      rintro ⟨ha, hb⟩
      have hb' : c.toNat ≤ 57 := hb
      omega
    · rw [jsToLower, if_neg hn]
  · have hu : ('A' : Char) ≤ c ∧ c ≤ 'Z' := by
      constructor
      · show 65 ≤ c.toNat
        omega
      · show c.toNat ≤ 90
        omega
    have ht : (Char.ofNat (c.toNat + 32)).toNat = c.toNat + 32 :=
      toNat_ofNat_lt (by omega)
    rw [jsToLower, if_pos hu]
    have hn2 : ¬(('A' : Char) ≤ Char.ofNat (c.toNat + 32) ∧
        Char.ofNat (c.toNat + 32) ≤ 'Z') := by
      rintro ⟨_, hb⟩
      have hb' : (Char.ofNat (c.toNat + 32)).toNat ≤ 90 := hb
      omega
    refine ⟨?_, ?_, ?_⟩
    · rw [isChoiceLetter]
      simp only [Bool.decide_or, Bool.or_eq_true, decide_eq_true_eq]
      left
      constructor
      · show 97 ≤ (Char.ofNat (c.toNat + 32)).toNat
        omega
      · show (Char.ofNat (c.toNat + 32)).toNat ≤ 101
        omega
    · rw [isDigitC]
      simp only [decide_eq_false_iff_not]
      rintro ⟨ha, hb⟩
      have ha' : 48 ≤ (Char.ofNat (c.toNat + 32)).toNat := ha
      have hb' : (Char.ofNat (c.toNat + 32)).toNat ≤ 57 := hb
      omega
    · rw [jsToLower, if_neg hn2]

/-- Choice letters are not digits. -/
theorem choice_not_digit {c : Char} (h : isChoiceLetter c = true) :
    isDigitC c = false := by
  rcases (by simpa [isChoiceLetter] using h :
      (('a' : Char) ≤ c ∧ c ≤ 'e') ∨ (('A' : Char) ≤ c ∧ c ≤ 'E')) with
    ⟨h1, _⟩ | ⟨h1, _⟩
  · rw [isDigitC]
    simp only [decide_eq_false_iff_not]
    rintro ⟨_, hb⟩
    have h1' : 97 ≤ c.toNat := h1
    have hb' : c.toNat ≤ 57 := hb
    omega
  · rw [isDigitC]
    simp only [decide_eq_false_iff_not]
    rintro ⟨_, hb⟩
    have h1' : 65 ≤ c.toNat := h1
    have hb' : c.toNat ≤ 57 := hb
    omega

/-- A character whose code is `'0'` is `'0'`. -/
theorem eq_zero_char_of_toNat {c : Char} (h : c.toNat = 48) : c = '0' := by
  have h2 := Char.ofNat_toNat c
  rw [h] at h2
  exact h2.symm.trans (by decide)

/-- Folding the decimal accumulator from an arbitrary start. -/
theorem natOfDigits_foldl (a : Nat) (ds : List Char) :
    ds.foldl (fun a c => 10 * a + (c.toNat - '0'.toNat)) a =
      a * 10 ^ ds.length + natOfDigits ds := by
  induction ds generalizing a with
  | nil => simp [natOfDigits]
  | cons c ds ih =>
    rw [List.foldl_cons, ih]
    have h2 : natOfDigits (c :: ds) =
        (c.toNat - '0'.toNat) * 10 ^ ds.length + natOfDigits ds := by
      rw [natOfDigits, List.foldl_cons, ih]
      ring_nf
    rw [h2, List.length_cons]
    ring

/-- Peeling the last digit. -/
theorem natOfDigits_append_one (ds : List Char) (c : Char) :
    natOfDigits (ds ++ [c]) = 10 * natOfDigits ds + (c.toNat - '0'.toNat) := by
  rw [natOfDigits, List.foldl_append]
  rfl

/-- A nonempty digit string without a leading zero has a positive value. -/
theorem natOfDigits_pos {ds : List Char} (h0 : ds ≠ [])
    (hd : ∀ c ∈ ds, isDigitC c = true) (hz : ds.head? ≠ some '0') :
    1 ≤ natOfDigits ds := by
  cases ds with
  | nil => exact absurd rfl h0
  | cons c ds =>
    have hc : isDigitC c = true := hd c (List.mem_cons_self ..)
    obtain ⟨h1, h2⟩ := isDigitC_iff.mp hc
    have hcz : c ≠ '0' := by
      intro he
      exact hz (by rw [he]; rfl)
    have hne : c.toNat ≠ 48 := fun he => hcz (eq_zero_char_of_toNat he)
    have hv : 1 ≤ c.toNat - '0'.toNat := by
      have h48 : '0'.toNat = 48 := rfl
      omega
    have h3 : natOfDigits (c :: ds) =
        (c.toNat - '0'.toNat) * 10 ^ ds.length + natOfDigits ds := by
      rw [natOfDigits, List.foldl_cons, natOfDigits_foldl]
      ring_nf
    rw [h3]
    have hp : 1 ≤ 10 ^ ds.length := Nat.one_le_pow _ _ (by omega)
    calc 1 = 1 * 1 := by omega
    _ ≤ (c.toNat - '0'.toNat) * 10 ^ ds.length := Nat.mul_le_mul hv hp
    _ ≤ _ := Nat.le_add_right _ _

/-- `digitsOfFuel` does not depend on the fuel, as long as it exceeds the
number. -/
theorem digitsOfFuel_congr :
    ∀ n f g : Nat, n < f → n < g → digitsOfFuel f n = digitsOfFuel g n := by
  intro n
  induction n using Nat.strong_induction_on with
  | _ n ih =>
    intro f g hf hg
    obtain ⟨f', rfl⟩ : ∃ f', f = f' + 1 := ⟨f - 1, by omega⟩
    obtain ⟨g', rfl⟩ : ∃ g', g = g' + 1 := ⟨g - 1, by omega⟩
    rw [digitsOfFuel, digitsOfFuel]
    by_cases h10 : n < 10
    · simp [h10]
    · have hdiv : n / 10 < n := Nat.div_lt_self (by omega) (by omega)
      simp only [if_neg h10]
      rw [ih (n / 10) hdiv f' g' (by omega) (by omega)]

/-- `natToString` on a single digit. -/
theorem natToString_lt10 {n : Nat} (h : n < 10) :
    natToString n = [digitChar n] := by
  rw [natToString, digitsOfFuel, if_pos h]

/-- `natToString` peels its last digit. -/
theorem natToString_ge10 {n : Nat} (h : 10 ≤ n) :
    natToString n = natToString (n / 10) ++ [digitChar (n % 10)] := by
  have hdiv : n / 10 < n := Nat.div_lt_self (by omega) (by omega)
  rw [natToString, digitsOfFuel, if_neg (by omega),
    digitsOfFuel_congr (n / 10) n (n / 10 + 1) (by omega) (by omega)]
  rfl

/-- The code of a digit character. -/
theorem digitChar_toNat {d : Nat} (h : d < 10) :
    (digitChar d).toNat = 48 + d := by
  have h48 : '0'.toNat = 48 := rfl
  rw [digitChar, h48]
  exact toNat_ofNat_lt (by omega)

/-- Digit characters are digits. -/
theorem digitChar_isDigit {d : Nat} (h : d < 10) :
    isDigitC (digitChar d) = true := by
  rw [isDigitC_iff, digitChar_toNat h]
  omega

/-- `digitChar` inverts the digit value of a digit character. -/
theorem digitChar_of_digit {c : Char} (h : isDigitC c = true) :
    digitChar (c.toNat - '0'.toNat) = c := by
  obtain ⟨h1, h2⟩ := isDigitC_iff.mp h
  have h48 : '0'.toNat = 48 := rfl
  have he : '0'.toNat + (c.toNat - '0'.toNat) = c.toNat := by omega
  rw [digitChar, he, Char.ofNat_toNat]

/-- Parsing inverts printing. -/
theorem natOfDigits_natToString (n : Nat) :
    natOfDigits (natToString n) = n := by
  induction n using Nat.strong_induction_on with
  | _ n ih =>
    by_cases h10 : n < 10
    · rw [natToString_lt10 h10]
      show 10 * 0 + ((digitChar n).toNat - '0'.toNat) = n
      rw [digitChar_toNat h10]
      have h48 : '0'.toNat = 48 := rfl
      omega
    · have hdiv : n / 10 < n := Nat.div_lt_self (by omega) (by omega)
      rw [natToString_ge10 (by omega), natOfDigits_append_one,
        ih (n / 10) hdiv, digitChar_toNat (by omega : n % 10 < 10)]
      have h48 : '0'.toNat = 48 := rfl
      omega

/-- Printing is a nonempty digit string. -/
theorem natToString_spec (n : Nat) :
    natToString n ≠ [] ∧ ∀ c ∈ natToString n, isDigitC c = true := by
  induction n using Nat.strong_induction_on with
  | _ n ih =>
    by_cases h10 : n < 10
    · rw [natToString_lt10 h10]
      exact ⟨by simp, by
        intro c hc
        rw [List.mem_singleton] at hc
        subst hc
        exact digitChar_isDigit h10⟩
    · have hdiv : n / 10 < n := Nat.div_lt_self (by omega) (by omega)
      rw [natToString_ge10 (by omega)]
      refine ⟨by simp, fun c hc => ?_⟩
      rcases List.mem_append.mp hc with hc | hc
      · exact (ih (n / 10) hdiv).2 c hc
      · rw [List.mem_singleton] at hc
        subst hc
        exact digitChar_isDigit (by omega)

/-- Printing inverts parsing on digit strings without superfluous leading
zeros. -/
theorem natToString_natOfDigits {ds : List Char} (h0 : ds ≠ [])
    (hd : ∀ c ∈ ds, isDigitC c = true)
    (hz : ds.head? ≠ some '0' ∨ ds = ['0']) :
    natToString (natOfDigits ds) = ds := by
  induction ds using List.reverseRecOn with
  | nil => exact absurd rfl h0
  | append_singleton ds c ih =>
    have hc : isDigitC c = true := hd c (by simp)
    obtain ⟨hc1, hc2⟩ := isDigitC_iff.mp hc
    have h48 : '0'.toNat = 48 := rfl
    cases ds with
    | nil =>
      rw [natOfDigits_append_one]
      show natToString (10 * natOfDigits [] + (c.toNat - '0'.toNat)) = [c]
      have hnil : natOfDigits [] = 0 := rfl
      rw [hnil]
      rw [show 10 * 0 + (c.toNat - '0'.toNat) = c.toNat - '0'.toNat by omega]
      rw [natToString_lt10 (by omega), digitChar_of_digit hc]
    | cons d ds' =>
      have hds : (d :: ds') ≠ [] := by simp
      have hd' : ∀ x ∈ d :: ds', isDigitC x = true := fun x hx =>
        hd x (List.mem_append_left _ hx)
      have hz' : (d :: ds').head? ≠ some '0' := by
        rcases hz with hz | hz
        · simpa using hz
        · exact absurd hz (by simp)
      have hp : 1 ≤ natOfDigits (d :: ds') := natOfDigits_pos hds hd' hz'
      rw [natOfDigits_append_one]
      have h10 : 10 ≤ 10 * natOfDigits (d :: ds') + (c.toNat - '0'.toNat) := by
        omega
      rw [natToString_ge10 h10]
      have hdiv : (10 * natOfDigits (d :: ds') + (c.toNat - '0'.toNat)) / 10 =
          natOfDigits (d :: ds') := by omega
      have hmod : (10 * natOfDigits (d :: ds') + (c.toNat - '0'.toNat)) % 10 =
          c.toNat - '0'.toNat := by omega
      rw [hdiv, hmod, ih hds hd' (Or.inl hz'), digitChar_of_digit hc]

/-- `takeWhile` walks through a fully satisfying prefix. -/
theorem takeWhile_append_all {p : Char → Bool} {l₁ l₂ : List Char}
    (h : ∀ c ∈ l₁, p c = true) :
    (l₁ ++ l₂).takeWhile p = l₁ ++ l₂.takeWhile p := by
  have h1 : l₁.takeWhile p = l₁ := List.takeWhile_eq_self_iff.mpr h
  rw [List.takeWhile_append, h1, if_pos rfl]

/-- `dropWhile` drops a fully satisfying prefix. -/
theorem dropWhile_append_all {p : Char → Bool} {l₁ l₂ : List Char}
    (h : ∀ c ∈ l₁, p c = true) :
    (l₁ ++ l₂).dropWhile p = l₂.dropWhile p := by
  have h1 : l₁.dropWhile p = [] := List.dropWhile_eq_nil_iff.mpr h
  rw [List.dropWhile_append, h1]
  simp

/-- `parsePageId` on a digit block followed by letters. -/
theorem parsePageId_append {ds ls : List Char} (h0 : ds ≠ [])
    (hd : ∀ c ∈ ds, isDigitC c = true)
    (hl : ∀ c ∈ ls, isChoiceLetter c = true) :
    parsePageId (ds ++ ls) = some ⟨natOfDigits ds, ls.map jsToLower⟩ := by
  have htake : (ds ++ ls).takeWhile isDigitC = ds := by
    rw [takeWhile_append_all hd]
    have : ls.takeWhile isDigitC = [] := by
      cases ls with
      | nil => rfl
      | cons c ls =>
        rw [List.takeWhile_cons,
          choice_not_digit (hl c (List.mem_cons_self ..))]
        rfl
    rw [this, List.append_nil]
  have hdrop : (ds ++ ls).dropWhile isDigitC = ls := by
    rw [dropWhile_append_all hd]
    cases ls with
    | nil => rfl
    | cons c ls =>
      rw [List.dropWhile_cons, choice_not_digit (hl c (List.mem_cons_self ..))]
      rfl
  rw [parsePageId]
  simp only [htake, hdrop]
  rw [if_pos ⟨h0, List.all_eq_true.mpr hl⟩]

/-- C6 (amended): parsing succeeds exactly on the grammar
`^[0-9]+[a-e]*$` (case-insensitive), and `toString(parse(s.lower()))`
reproduces `s.lower()` for every grammar string whose digit block carries
no superfluous leading zero — `parseInt` collapses leading zeros, which
is why the restriction is needed. -/
theorem parsePageId_roundtrip :
    (∀ s, (parsePageId s).isSome ↔ PageIdGrammar s) ∧
    (∀ ds ls, ds ≠ [] → (∀ c ∈ ds, isDigitC c = true) →
      (∀ c ∈ ls, isChoiceLetter c = true) →
      (ds.head? ≠ some '0' ∨ ds = ['0']) →
      parsePageId ((ds ++ ls).map jsToLower) =
        some ⟨natOfDigits ds, ls.map jsToLower⟩ ∧
      formatSaveCode (natOfDigits ds) (ls.map jsToLower) =
        (ds ++ ls).map jsToLower) := by
  constructor
  · intro s
    constructor
    · intro h
      rw [parsePageId] at h
      by_cases hc : s.takeWhile isDigitC ≠ [] ∧
          (s.dropWhile isDigitC).all isChoiceLetter
      · exact ⟨s.takeWhile isDigitC, s.dropWhile isDigitC,
          (List.takeWhile_append_dropWhile ..).symm, hc.1,
          fun c hm => List.mem_takeWhile_imp hm,
          fun c hm => List.all_eq_true.mp hc.2 c hm⟩
      · rw [if_neg hc] at h
        cases h
    · rintro ⟨ds, ls, rfl, h0, hd, hl⟩
      rw [parsePageId_append h0 hd hl]
      rfl
  · intro ds ls h0 hd hl hz
    have hmap : (ds ++ ls).map jsToLower = ds ++ ls.map jsToLower := by
      rw [List.map_append]
      congr 1
      exact (List.map_congr_left fun c hc =>
        jsToLower_digit (hd c hc)).trans (List.map_id ds)
    have hl' : ∀ c ∈ ls.map jsToLower, isChoiceLetter c = true := by
      intro c hc
      obtain ⟨d, hd2, rfl⟩ := List.mem_map.mp hc
      exact (jsToLower_choice (hl d hd2)).1
    have hidem : (ls.map jsToLower).map jsToLower = ls.map jsToLower := by
      rw [List.map_map]
      exact List.map_congr_left fun c hc => (jsToLower_choice (hl c hc)).2.2
    constructor
    · rw [hmap, parsePageId_append h0 hd hl', hidem]
    · rw [hmap, formatSaveCode]
      by_cases hone : natOfDigits ds = 1 ∧ ls.map jsToLower = []
      · rw [if_pos hone]
        have hds : ds = ['1'] := by
          have := natToString_natOfDigits h0 hd hz
          rw [hone.1] at this
          rw [← this, natToString_lt10 (by omega)]
          rfl
        rw [hds, hone.2]
        rfl
      · rw [if_neg hone, natToString_natOfDigits h0 hd hz]

/-- Witness for `parsePageId_roundtrip`: the mixed-case id `3AB`
round-trips through its lowercase form `3ab`. -/
theorem parsePageId_roundtrip_witness :
    ("3".data ≠ ([] : List Char)) ∧
    parsePageId (("3".data ++ "AB".data).map jsToLower) =
      some ⟨natOfDigits "3".data, "AB".data.map jsToLower⟩ ∧
    formatSaveCode (natOfDigits "3".data) ("AB".data.map jsToLower) =
      ("3".data ++ "AB".data).map jsToLower :=
  ⟨by decide,
    (parsePageId_roundtrip.2 "3".data "AB".data (by decide) (by decide)
      (by decide) (by decide)).1,
    (parsePageId_roundtrip.2 "3".data "AB".data (by decide) (by decide)
      (by decide) (by decide)).2⟩

/-- C6 (counterexample): `01` matches the grammar, but parses to page 1,
which re-serializes as `1`, not `01`. -/
theorem pageId_leading_zero_not_roundtrip :
    PageIdGrammar "01".data ∧
    parsePageId "01".data = some ⟨1, []⟩ ∧
    formatSaveCode 1 [] = "1".data ∧
    formatSaveCode 1 [] ≠ "01".data :=
  ⟨⟨"01".data, [], by simp, by decide, by decide, by decide⟩,
    by decide, by decide, by decide⟩

/-! ### Generic facts about the replacement scanner -/

/-- With enough fuel, `replaceScanBF` does not depend on the fuel. -/
theorem replaceScanBF_stable {p : List Char → Option (List Char × List Char)}
    (hp : ∀ cs r rest, p cs = some (r, rest) → rest.length < cs.length) :
    ∀ f g cs, cs.length ≤ f → cs.length ≤ g →
      replaceScanBF p f cs = replaceScanBF p g cs := by
  intro f
  induction f with
  | zero =>
    intro g cs hf _
    have : cs = [] := by
      cases cs
      · rfl
      · simp at hf
    subst this
    cases g <;> rfl
  | succ f ih =>
    intro g cs hf hg
    cases cs with
    | nil => cases g <;> rfl
    | cons c cs =>
      obtain ⟨g', rfl⟩ : ∃ g', g = g' + 1 := ⟨g - 1, by simp at hg; omega⟩
      rw [replaceScanBF, replaceScanBF]
      cases hm : p (c :: cs) with
      | some pr =>
        obtain ⟨r, rest⟩ := pr
        have hlen := hp _ _ _ hm
        dsimp only
        rw [ih g' rest
          (by simp only [List.length_cons] at hf hlen; omega)
          (by simp only [List.length_cons] at hg hlen; omega)]
      | none =>
        dsimp only
        rw [ih g' cs (by simp at hf; omega) (by simp at hg; omega)]

/-- The scan output never grows, and strictly shrinks when a replacement
happened. -/
theorem replaceScanBF_shrink {p : List Char → Option (List Char × List Char)}
    (hp : ∀ cs r rest, p cs = some (r, rest) →
      r.length + rest.length < cs.length) :
    ∀ f cs, (replaceScanBF p f cs).1.length ≤ cs.length ∧
      ((replaceScanBF p f cs).2 = true →
        (replaceScanBF p f cs).1.length < cs.length) := by
  intro f
  induction f with
  | zero =>
    intro cs
    cases cs <;> simp [replaceScanBF]
  | succ f ih =>
    intro cs
    cases cs with
    | nil => simp [replaceScanBF]
    | cons c cs =>
      rw [replaceScanBF]
      cases hm : p (c :: cs) with
      | some pr =>
        obtain ⟨r, rest⟩ := pr
        have hlen := hp _ _ _ hm
        simp only [List.length_cons] at hlen
        dsimp only
        have h2 := (ih rest).1
        constructor
        · rw [List.length_append]
          simp only [List.length_cons]
          omega
        · intro _
          rw [List.length_append]
          simp only [List.length_cons]
          omega
      | none =>
        have h2 := ih cs
        dsimp only
        constructor
        · simp only [List.length_cons]
          omega
        · intro hch
          simp only [List.length_cons]
          have := h2.2 hch
          omega

/-- If the matcher fails on every suffix, the scan is the identity. -/
theorem replaceScanBF_nomatch {p : List Char → Option (List Char × List Char)} :
    ∀ (f : Nat) (cs : List Char), (∀ t, t <:+ cs → p t = none) →
      replaceScanBF p f cs = (cs, false) := by
  intro f
  induction f with
  | zero =>
    intro cs _
    cases cs <;> rfl
  | succ f ih =>
    intro cs hnm
    cases cs with
    | nil => rfl
    | cons c cs =>
      rw [replaceScanBF, hnm (c :: cs) (List.suffix_refl _)]
      rw [ih cs fun t ht => hnm t (ht.trans (List.suffix_cons c cs))]

/-- The scan walks through a prefix on which the matcher can never fire. -/
theorem replaceScanBF_append_nomatch
    {p : List Char → Option (List Char × List Char)}
    (hp : ∀ cs r rest, p cs = some (r, rest) → rest.length < cs.length) :
    ∀ (s t : List Char) (f : Nat), (s ++ t).length ≤ f →
      (∀ t₂, t₂ <:+ s → t₂ ≠ [] → p (t₂ ++ t) = none) →
      replaceScanBF p f (s ++ t) =
        ((s ++ (replaceScanBF p t.length t).1, (replaceScanBF p t.length t).2)) := by
  intro s
  induction s with
  | nil =>
    intro t f hf _
    simp only [List.nil_append, List.length_nil]
    rw [replaceScanBF_stable hp f t.length t (by simpa using hf) le_rfl]
  | cons c s ih =>
    intro t f hf hnm
    obtain ⟨f', rfl⟩ : ∃ f', f = f' + 1 := ⟨f - 1, by simp at hf; omega⟩
    show replaceScanBF p (f' + 1) (c :: (s ++ t)) = _
    rw [replaceScanBF]
    have hc : p (c :: (s ++ t)) = none := by
      have := hnm (c :: s) (List.suffix_refl _) (by simp)
      simpa using this
    rw [hc]
    rw [ih t f' (by simp at hf ⊢; omega)
      fun t₂ ht h2 => hnm t₂ (ht.trans (List.suffix_cons c s)) h2]
    simp

/-- The scan fires on a match at the head. -/
theorem replaceScanBF_match_head
    {p : List Char → Option (List Char × List Char)}
    (hp : ∀ cs r rest, p cs = some (r, rest) → rest.length < cs.length) :
    ∀ (cs r rest : List Char) (f : Nat), p cs = some (r, rest) →
      cs.length ≤ f →
      replaceScanBF p f cs =
        (r ++ (replaceScanBF p rest.length rest).1, true) := by
  intro cs r rest f hm hf
  have hlen := hp _ _ _ hm
  cases cs with
  | nil => simp at hlen
  | cons c cs =>
    obtain ⟨f', rfl⟩ : ∃ f', f = f' + 1 := ⟨f - 1, by simp at hf; omega⟩
    rw [replaceScanBF, hm]
    dsimp only
    rw [replaceScanBF_stable hp f' rest.length rest
      (by simp only [List.length_cons] at hf hlen; omega) le_rfl]

/-! ### Lengths and positions of the conditional matchers -/

/-- A successful case-insensitive prefix match consumes the pattern. -/
theorem dropPrefixCI_spec {pat s r : List Char}
    (h : dropPrefixCI pat s = some r) :
    r.length + pat.length = s.length ∧ r <:+ s := by
  induction pat generalizing s with
  | nil =>
    cases h
    simp
  | cons p ps ih =>
    cases s with
    | nil => cases h
    | cons c cs =>
      rw [dropPrefixCI] at h
      split at h
      · obtain ⟨h1, h2⟩ := ih h
        exact ⟨by simp only [List.length_cons]; omega,
          h2.trans (List.suffix_cons c cs)⟩
      · cases h

/-- A successful case-sensitive prefix match consumes the pattern. -/
theorem dropPrefixCS_spec {pat s r : List Char}
    (h : dropPrefixCS pat s = some r) :
    r.length + pat.length = s.length ∧ r <:+ s := by
  induction pat generalizing s with
  | nil =>
    cases h
    simp
  | cons p ps ih =>
    cases s with
    | nil => cases h
    | cons c cs =>
      rw [dropPrefixCS] at h
      split at h
      · obtain ⟨h1, h2⟩ := ih h
        exact ⟨by simp only [List.length_cons]; omega,
          h2.trans (List.suffix_cons c cs)⟩
      · cases h

/-- A parsed name is a nonempty word-character prefix. -/
theorem parseName_spec {s nm r : List Char}
    (h : parseName s = some (nm, r)) :
    nm ≠ [] ∧ s = nm ++ r ∧ ∀ c ∈ nm, isWordChar c = true := by
  rw [parseName] at h
  split at h
  · cases h
  · simp only [Option.some.injEq, Prod.mk.injEq] at h
    obtain ⟨rfl, rfl⟩ := h
    refine ⟨by assumption, (List.takeWhile_append_dropWhile ..).symm,
      fun c hc => List.mem_takeWhile_imp hc⟩

/-- A successful comparison-operator alternation consumes the operator,
a nonempty value and the closing brace. -/
theorem tryCmpOps_spec {ops : List (List Char)} {s o v r : List Char}
    (hops : ∀ op ∈ ops, op ≠ ([] : List Char))
    (h : tryCmpOps ops s = some (o, v, r)) :
    r.length + 3 ≤ s.length ∧ r <:+ s := by
  induction ops generalizing s with
  | nil => rw [tryCmpOps] at h; cases h
  | cons op ops ih =>
    have hrec := fun {s : List Char}
        (h2 : tryCmpOps ops s = some (o, v, r)) =>
      ih (fun o ho => hops o (List.mem_cons_of_mem _ ho)) h2
    rw [tryCmpOps] at h
    cases hd : dropPrefixCS op s with
    | none =>
      rw [hd] at h
      exact hrec h
    | some r2 =>
      rw [hd] at h
      obtain ⟨hlen2, hsuf2⟩ := dropPrefixCS_spec hd
      have hop1 : 1 ≤ op.length := by
        cases hq : op
        · exact absurd hq (hops op (List.mem_cons_self ..))
        · simp
      dsimp only at h
      split at h
      · rename_i v0 vs r3 heqtake heqdrop
        simp only [Option.some.injEq, Prod.mk.injEq] at h
        obtain ⟨rfl, rfl, rfl⟩ := h
        have hdec : r2 = List.takeWhile (fun c => decide (c ≠ '\x7d')) r2 ++
            '\x7d' :: r3 := by
          conv_lhs => rw [← List.takeWhile_append_dropWhile
            (fun c => decide (c ≠ '\x7d')) r2]
          rw [heqdrop]
        have hr2 : r3.length + 2 ≤ r2.length := by
          rw [hdec, List.length_append, List.length_cons]
          rw [heqtake, List.length_cons]
          omega
        refine ⟨by omega, ?_⟩
        have h2 : '\x7d' :: r3 <:+ r2 :=
          ⟨List.takeWhile (fun c => decide (c ≠ '\x7d')) r2, hdec.symm⟩
        exact ((List.suffix_cons _ _).trans h2).trans hsuf2
      · exact hrec h

/-- A matched conditional header consumes at least six characters. -/
theorem parseIfHeaderAt_spec {s name : List Char}
    {cmp : Option (List Char × List Char)} {rest : List Char}
    (h : parseIfHeaderAt s = some (name, cmp, rest)) :
    rest.length + 6 ≤ s.length ∧ rest <:+ s := by
  rw [parseIfHeaderAt] at h
  cases hd : dropPrefixCI "\x7bif:".data s with
  | none => rw [hd] at h; cases h
  | some r0 =>
    rw [hd] at h
    dsimp only at h
    obtain ⟨hl0, hs0⟩ := dropPrefixCI_spec hd
    have h4 : ("\x7bif:".data).length = 4 := rfl
    cases hn : parseName r0 with
    | none => rw [hn] at h; cases h
    | some pr =>
      rw [hn] at h
      obtain ⟨nm, r1⟩ := pr
      obtain ⟨hnm, hr0, _⟩ := parseName_spec hn
      have hnm1 : 1 ≤ nm.length := by
        cases hq : nm
        · exact absurd hq hnm
        · simp
      have hr1 : r1.length + 1 ≤ r0.length := by
        rw [hr0, List.length_append]
        omega
      have hr1s : r1 <:+ r0 := ⟨nm, hr0.symm⟩
      dsimp only at h
      cases ht : tryCmpOps cmpOps r1 with
      | some t =>
        obtain ⟨o, v, r2⟩ := t
        rw [ht] at h
        simp only [Option.some.injEq, Prod.mk.injEq] at h
        obtain ⟨rfl, rfl, rfl⟩ := h
        obtain ⟨hl2, hs2⟩ := tryCmpOps_spec (by decide) ht
        exact ⟨by omega, (hs2.trans hr1s).trans hs0⟩
      | none =>
        rw [ht] at h
        dsimp only at h
        split at h
        · simp only [Option.some.injEq, Prod.mk.injEq] at h
          obtain ⟨rfl, rfl, rfl⟩ := h
          refine ⟨?_, ?_⟩
          · simp only [List.length_cons] at hr1
            omega
          · exact ((List.suffix_cons _ _).trans hr1s).trans hs0
        · cases h

/-- A found closer splits the text and witnesses a closer occurrence. -/
theorem splitAtCloser_spec {s body rest : List Char}
    (h : splitAtCloser s = some (body, rest)) :
    body.length + 5 + rest.length = s.length ∧ rest <:+ s ∧
      containsCI "\x7b/if\x7d".data s = true := by
  induction s generalizing body with
  | nil => cases h
  | cons c cs ih =>
    rw [splitAtCloser] at h
    cases hd : dropPrefixCI "\x7b/if\x7d".data (c :: cs) with
    | some r =>
      rw [hd] at h
      simp only [Option.some.injEq, Prod.mk.injEq] at h
      obtain ⟨rfl, rfl⟩ := h
      obtain ⟨hl, hs⟩ := dropPrefixCI_spec hd
      have h5 : ("\x7b/if\x7d".data).length = 5 := rfl
      rw [h5] at hl
      refine ⟨by simp only [List.length_nil]; omega, hs, ?_⟩
      rw [containsCI, hd]
      rfl
    | none =>
      rw [hd] at h
      cases hrec : splitAtCloser cs with
      | none => rw [hrec] at h; cases h
      | some pr =>
        obtain ⟨b, r⟩ := pr
        rw [hrec] at h
        simp only [Option.some.injEq, Prod.mk.injEq] at h
        obtain ⟨rfl, rfl⟩ := h
        obtain ⟨hl, hs, hc⟩ := ih hrec
        refine ⟨by simp only [List.length_cons]; omega,
          hs.trans (List.suffix_cons c cs), ?_⟩
        rw [containsCI, hc]
        simp

/-- Same splitting fact for the engine's innermost-body scan. -/
theorem splitAtCloserNoIf_spec {s body rest : List Char}
    (h : splitAtCloserNoIf s = some (body, rest)) :
    body.length + 5 + rest.length = s.length ∧ rest <:+ s ∧
      containsCI "\x7b/if\x7d".data s = true := by
  induction s generalizing body with
  | nil => cases h
  | cons c cs ih =>
    rw [splitAtCloserNoIf] at h
    cases hd : dropPrefixCI "\x7b/if\x7d".data (c :: cs) with
    | some r =>
      rw [hd] at h
      simp only [Option.some.injEq, Prod.mk.injEq] at h
      obtain ⟨rfl, rfl⟩ := h
      obtain ⟨hl, hs⟩ := dropPrefixCI_spec hd
      have h5 : ("\x7b/if\x7d".data).length = 5 := rfl
      rw [h5] at hl
      refine ⟨by simp only [List.length_nil]; omega, hs, ?_⟩
      rw [containsCI, hd]
      rfl
    | none =>
      rw [hd] at h
      by_cases hif : (dropPrefixCI "\x7bif:".data (c :: cs)).isSome
      · rw [if_pos hif] at h
        cases h
      · rw [if_neg hif] at h
        cases hrec : splitAtCloserNoIf cs with
        | none => rw [hrec] at h; cases h
        | some pr =>
          obtain ⟨b, r⟩ := pr
          rw [hrec] at h
          simp only [Option.some.injEq, Prod.mk.injEq] at h
          obtain ⟨rfl, rfl⟩ := h
          obtain ⟨hl, hs, hc⟩ := ih hrec
          refine ⟨by simp only [List.length_cons]; omega,
            hs.trans (List.suffix_cons c cs), ?_⟩
          rw [containsCI, hc]
          simp

/-- Containment is inherited downward along suffixes (contrapositive
form). -/
theorem containsCI_suffix {pat t t2 : List Char} (hs : t2 <:+ t)
    (h : containsCI pat t = false) : containsCI pat t2 = false := by
  obtain ⟨pre, rfl⟩ := hs
  induction pre with
  | nil => simpa using h
  | cons c pre ih =>
    rw [List.cons_append, containsCI] at h
    rcases Bool.or_eq_false_iff.mp h with ⟨_, h2⟩
    exact ih h2

/-- A head match witnesses containment. -/
theorem containsCI_head {pat s : List Char}
    (h : (dropPrefixCI pat s).isSome) : containsCI pat s = true := by
  cases s with
  | nil => rw [containsCI]; exact h
  | cons c cs =>
    rw [containsCI]
    simp only [Bool.or_eq_true]
    exact Or.inl h

/-- Lower-casing only produces `\{` from `\{` itself. -/
theorem eq_brace_of_jsToLower {c : Char} (h : jsToLower c = '\x7b') :
    c = '\x7b' := by
  rw [jsToLower] at h
  split at h
  · rename_i hu
    have h1 : (Char.ofNat (c.toNat + 32)).toNat = '\x7b'.toNat :=
      congrArg Char.toNat h
    have h2 : c.toNat ≤ 90 := hu.2
    rw [toNat_ofNat_lt (by omega)] at h1
    have h3 : ('\x7b' : Char).toNat = 123 := rfl
    omega
  · exact h

/-- A conditional header only matches at a `\{`. -/
theorem parseIfHeaderAt_head {c : Char} {cs name : List Char}
    {cmp : Option (List Char × List Char)} {rest : List Char}
    (h : parseIfHeaderAt (c :: cs) = some (name, cmp, rest)) : c = '\x7b' := by
  rw [parseIfHeaderAt] at h
  cases hd : dropPrefixCI "\x7bif:".data (c :: cs) with
  | none => rw [hd] at h; cases h
  | some r0 =>
    rw [dropPrefixCI] at hd
    revert hd
    split
    · intro _
      exact eq_brace_of_jsToLower (by assumption)
    · intro hd
      cases hd

/-- A successful header match witnesses an opener occurrence. -/
theorem parseIfHeaderAt_contains {s name : List Char}
    {cmp : Option (List Char × List Char)} {rest : List Char}
    (h : parseIfHeaderAt s = some (name, cmp, rest)) :
    containsCI "\x7bif:".data s = true := by
  rw [parseIfHeaderAt] at h
  cases hd : dropPrefixCI "\x7bif:".data s with
  | none => rw [hd] at h; cases h
  | some r0 => exact containsCI_head (by rw [hd]; rfl)

/-- The replacement of a block is never longer than its body. -/
theorem condReplacement_len (vars : VarState) (name : List Char)
    (cmp : Option (List Char × List Char)) (body : List Char) :
    (condReplacement vars name cmp body).length ≤ body.length := by
  rw [condReplacement.eq_def]
  dsimp only
  split
  · exact le_rfl
  · simp

/-- An editor-side conditional match strictly shrinks the text. -/
theorem formatCondMatch_len {vars : VarState} {s repl rest : List Char}
    (h : Format.condMatchAt vars s = some (repl, rest)) :
    repl.length + rest.length < s.length := by
  rw [Format.condMatchAt] at h
  cases hh : parseIfHeaderAt s with
  | none => rw [hh] at h; cases h
  | some t =>
    rw [hh] at h
    obtain ⟨name, cmp, afterHdr⟩ := t
    dsimp only at h
    cases hsp : splitAtCloser afterHdr with
    | none => rw [hsp] at h; cases h
    | some pr =>
      obtain ⟨body, rest'⟩ := pr
      rw [hsp] at h
      simp only [Option.some.injEq, Prod.mk.injEq] at h
      obtain ⟨rfl, rfl⟩ := h
      obtain ⟨hl1, _⟩ := parseIfHeaderAt_spec hh
      obtain ⟨hl2, _, _⟩ := splitAtCloser_spec hsp
      have hrepl := condReplacement_len vars name cmp body
      omega

/-- An engine-side conditional match strictly shrinks the text. -/
theorem engineCondMatch_len {vars : VarState} {s repl rest : List Char}
    (h : EngineVars.condMatchAt vars s = some (repl, rest)) :
    repl.length + rest.length < s.length := by
  rw [EngineVars.condMatchAt] at h
  cases hh : parseIfHeaderAt s with
  | none => rw [hh] at h; cases h
  | some t =>
    rw [hh] at h
    obtain ⟨name, cmp, afterHdr⟩ := t
    dsimp only at h
    cases hsp : splitAtCloserNoIf afterHdr with
    | none => rw [hsp] at h; cases h
    | some pr =>
      obtain ⟨body, rest'⟩ := pr
      rw [hsp] at h
      simp only [Option.some.injEq, Prod.mk.injEq] at h
      obtain ⟨rfl, rfl⟩ := h
      obtain ⟨hl1, _⟩ := parseIfHeaderAt_spec hh
      obtain ⟨hl2, _, _⟩ := splitAtCloserNoIf_spec hsp
      have hrepl := condReplacement_len vars name cmp body
      omega

/-- Without any `\{/if\}` in the text, the editor matcher never fires. -/
theorem formatCondMatch_none_noCloser {vars : VarState} {s : List Char}
    (h : containsCI "\x7b/if\x7d".data s = false) :
    Format.condMatchAt vars s = none := by
  cases hm : Format.condMatchAt vars s with
  | none => rfl
  | some pr =>
    exfalso
    obtain ⟨repl, rest⟩ := pr
    rw [Format.condMatchAt] at hm
    cases hh : parseIfHeaderAt s with
    | none => rw [hh] at hm; cases hm
    | some t =>
      rw [hh] at hm
      obtain ⟨name, cmp, afterHdr⟩ := t
      dsimp only at hm
      cases hsp : splitAtCloser afterHdr with
      | none => rw [hsp] at hm; cases hm
      | some pr2 =>
        obtain ⟨_, hsuf⟩ := parseIfHeaderAt_spec hh
        obtain ⟨_, _, hc⟩ :=
          @splitAtCloser_spec afterHdr pr2.1 pr2.2 (by rw [hsp])
        rw [containsCI_suffix hsuf h] at hc
        cases hc

/-- Without any `\{/if\}` in the text, the engine matcher never fires. -/
theorem engineCondMatch_none_noCloser {vars : VarState} {s : List Char}
    (h : containsCI "\x7b/if\x7d".data s = false) :
    EngineVars.condMatchAt vars s = none := by
  cases hm : EngineVars.condMatchAt vars s with
  | none => rfl
  | some pr =>
    exfalso
    obtain ⟨repl, rest⟩ := pr
    rw [EngineVars.condMatchAt] at hm
    cases hh : parseIfHeaderAt s with
    | none => rw [hh] at hm; cases hm
    | some t =>
      rw [hh] at hm
      obtain ⟨name, cmp, afterHdr⟩ := t
      dsimp only at hm
      cases hsp : splitAtCloserNoIf afterHdr with
      | none => rw [hsp] at hm; cases hm
      | some pr2 =>
        obtain ⟨_, hsuf⟩ := parseIfHeaderAt_spec hh
        obtain ⟨_, _, hc⟩ :=
          @splitAtCloserNoIf_spec afterHdr pr2.1 pr2.2 (by rw [hsp])
        rw [containsCI_suffix hsuf h] at hc
        cases hc

/-- Without any `\{if:` in the text, the editor matcher never fires. -/
theorem formatCondMatch_none_noOpener {vars : VarState} {s : List Char}
    (h : containsCI "\x7bif:".data s = false) :
    Format.condMatchAt vars s = none := by
  cases hm : Format.condMatchAt vars s with
  | none => rfl
  | some pr =>
    exfalso
    rw [Format.condMatchAt] at hm
    cases hh : parseIfHeaderAt s with
    | none => rw [hh] at hm; cases hm
    | some t =>
      obtain ⟨name, cmp, afterHdr⟩ := t
      rw [parseIfHeaderAt_contains hh] at h
      cases h

/-- Without any `\{if:` in the text, the engine matcher never fires. -/
theorem engineCondMatch_none_noOpener {vars : VarState} {s : List Char}
    (h : containsCI "\x7bif:".data s = false) :
    EngineVars.condMatchAt vars s = none := by
  cases hm : EngineVars.condMatchAt vars s with
  | none => rfl
  | some pr =>
    exfalso
    rw [EngineVars.condMatchAt] at hm
    cases hh : parseIfHeaderAt s with
    | none => rw [hh] at hm; cases hm
    | some t =>
      obtain ⟨name, cmp, afterHdr⟩ := t
      rw [parseIfHeaderAt_contains hh] at h
      cases h

/-- A changed engine pass strictly shrinks the text. -/
theorem enginePass_shrink (vars : VarState) (t : List Char) :
    (EngineVars.enginePass vars t).1.length ≤ t.length ∧
    ((EngineVars.enginePass vars t).2 = true →
      (EngineVars.enginePass vars t).1.length < t.length) :=
  replaceScanBF_shrink (fun _ _ _ h => engineCondMatch_len h) _ t

/-- The engine loop reaches a fixed point within any fuel above the text
length. -/
theorem engineLoop_fix (vars : VarState) :
    ∀ (f : Nat) (t : List Char), t.length < f →
      (EngineVars.enginePass vars (EngineVars.engineLoop vars f t)).2 = false := by
  intro f
  induction f with
  | zero => intro t ht; omega
  | succ f ih =>
    intro t ht
    rw [EngineVars.engineLoop]
    by_cases hc : (EngineVars.enginePass vars t).2 = true
    · rw [if_pos hc]
      exact ih _ (by have := (enginePass_shrink vars t).2 hc; omega)
    · rw [if_neg hc]
      exact Bool.eq_false_iff.mpr hc

/-- The engine loop does not depend on the fuel above the text length. -/
theorem engineLoop_stable (vars : VarState) :
    ∀ (f g : Nat) (t : List Char), t.length < f → t.length < g →
      EngineVars.engineLoop vars f t = EngineVars.engineLoop vars g t := by
  intro f
  induction f with
  | zero => intro g t ht; omega
  | succ f ih =>
    intro g t ht hg
    obtain ⟨g', rfl⟩ : ∃ g', g = g' + 1 := ⟨g - 1, by omega⟩
    rw [EngineVars.engineLoop, EngineVars.engineLoop]
    by_cases hc : (EngineVars.enginePass vars t).2 = true
    · rw [if_pos hc, if_pos hc]
      have hlt := (enginePass_shrink vars t).2 hc
      exact ih g' _ (by omega) (by omega)
    · rw [if_neg hc, if_neg hc]

/-- C7: conditional resolution degrades gracefully on malformed input.
The engine's rewrite loop always terminates: with the implementation's
fuel it reaches a genuine fixed point, and any larger fuel yields the
same result.  An `\{if:...\}` opener with no `\{/if\}` anywhere, and a
`\{/if\}` with no `\{if:` anywhere, are left verbatim: both resolvers
return such texts unchanged rather than raising or deleting tokens. -/
theorem conditionals_malformed_graceful (vars : VarState) (t : List Char) :
    (EngineVars.enginePass vars
      (EngineVars.processConditionals t vars)).2 = false ∧
    (∀ f, t.length < f →
      EngineVars.engineLoop vars f t = EngineVars.processConditionals t vars) ∧
    (containsCI "\x7b/if\x7d".data t = false →
      Format.processConditionals t vars = t ∧
      EngineVars.processConditionals t vars = t) ∧
    (containsCI "\x7bif:".data t = false →
      Format.processConditionals t vars = t ∧
      EngineVars.processConditionals t vars = t) := by
  have hformatid : ∀ (hnm : ∀ t2, t2 <:+ t → Format.condMatchAt vars t2 = none),
      Format.processConditionals t vars = t := by
    intro hnm
    rw [Format.processConditionals, replaceScanBF_nomatch _ _ hnm]
  have hengineid : ∀ (hnm : ∀ t2, t2 <:+ t →
      EngineVars.condMatchAt vars t2 = none),
      EngineVars.processConditionals t vars = t := by
    intro hnm
    rw [EngineVars.processConditionals, EngineVars.engineLoop]
    have hpass : EngineVars.enginePass vars t = (t, false) := by
      rw [EngineVars.enginePass, replaceScanBF_nomatch _ _ hnm]
    rw [hpass]
    simp
  refine ⟨engineLoop_fix vars _ _ (by omega), ?_, ?_, ?_⟩
  · intro f hf
    exact engineLoop_stable vars f (t.length + 1) t hf (by omega)
  · intro h
    exact ⟨hformatid fun t2 ht2 =>
        formatCondMatch_none_noCloser (containsCI_suffix ht2 h),
      hengineid fun t2 ht2 =>
        engineCondMatch_none_noCloser (containsCI_suffix ht2 h)⟩
  · intro h
    exact ⟨hformatid fun t2 ht2 =>
        formatCondMatch_none_noOpener (containsCI_suffix ht2 h),
      hengineid fun t2 ht2 =>
        engineCondMatch_none_noOpener (containsCI_suffix ht2 h)⟩

/-- Witness for `conditionals_malformed_graceful`: the unmatched opener
text `\{if:a\}X` contains no closer and passes through both resolvers
verbatim. -/
theorem conditionals_malformed_graceful_witness :
    containsCI "\x7b/if\x7d".data "\x7bif:a\x7dX".data = false ∧
    Format.processConditionals "\x7bif:a\x7dX".data [] = "\x7bif:a\x7dX".data ∧
    EngineVars.processConditionals "\x7bif:a\x7dX".data [] =
      "\x7bif:a\x7dX".data :=
  ⟨by decide,
    ((conditionals_malformed_graceful [] "\x7bif:a\x7dX".data).2.2.1
      (by decide)).1,
    ((conditionals_malformed_graceful [] "\x7bif:a\x7dX".data).2.2.1
      (by decide)).2⟩

/-! ### Editor/engine agreement on segmented texts -/

/-- A case-sensitive prefix match consumes exactly the pattern. -/
theorem dropPrefixCS_eq {pat s r : List Char}
    (h : dropPrefixCS pat s = some r) : s = pat ++ r := by
  induction pat generalizing s with
  | nil => cases h; rfl
  | cons p ps ih =>
    cases s with
    | nil => cases h
    | cons c cs =>
      rw [dropPrefixCS] at h
      split at h
      · rename_i hc
        rw [List.cons_append, ← ih h, hc]
      · cases h

/-- What follows the first closing brace cannot affect a case-sensitive
match of a brace-free pattern. -/
theorem dropPrefixCS_extend {pat : List Char} (hp : '\x7d' ∉ pat) :
    ∀ (s X : List Char),
      dropPrefixCS pat (s ++ '\x7d' :: X) =
        (dropPrefixCS pat (s ++ ['\x7d'])).map fun r => r ++ X := by
  induction pat with
  | nil =>
    intro s X
    simp [dropPrefixCS]
  | cons p ps ih =>
    intro s X
    have hp1 : p ≠ '\x7d' := fun he => hp (he ▸ List.mem_cons_self ..)
    have hps : '\x7d' ∉ ps := fun hm => hp (List.mem_cons_of_mem _ hm)
    cases s with
    | nil =>
      simp only [List.nil_append]
      rw [dropPrefixCS, dropPrefixCS]
      rw [if_neg (by simpa using fun h => hp1 h.symm),
        if_neg (by simpa using fun h => hp1 h.symm)]
      rfl
    | cons c cs =>
      simp only [List.cons_append]
      rw [dropPrefixCS, dropPrefixCS]
      by_cases hc : c = p
      · rw [if_pos hc, if_pos hc]
        exact ih hps cs X
      · rw [if_neg hc, if_neg hc]
        rfl

/-- What follows the closing brace affects a comparison-operator match
only by being carried along as the rest. -/
theorem tryCmpOps_extend {ops : List (List Char)}
    (hops : ∀ op ∈ ops, op ≠ ([] : List Char) ∧ '\x7d' ∉ op) :
    ∀ (tail : List Char), '\x7d' ∉ tail → ∀ X,
      tryCmpOps ops (tail ++ '\x7d' :: X) =
        (tryCmpOps ops (tail ++ ['\x7d'])).map fun t => (t.1, t.2.1, X) := by
  induction ops with
  | nil => intro tail _ X; rfl
  | cons op ops ih =>
    intro tail hb X
    obtain ⟨hne, hbop⟩ := hops op (List.mem_cons_self ..)
    have hrec := ih (fun o ho => hops o (List.mem_cons_of_mem _ ho)) tail hb X
    rw [tryCmpOps, tryCmpOps, dropPrefixCS_extend hbop]
    cases hbase : dropPrefixCS op (tail ++ ['\x7d']) with
    | none =>
      dsimp only [Option.map]
      exact hrec
    | some r2 =>
      dsimp only [Option.map]
      have hsplit : tail ++ ['\x7d'] = op ++ r2 := dropPrefixCS_eq hbase
      have hr2ne : r2 ≠ [] := by
        intro he
        rw [he, List.append_nil] at hsplit
        exact hbop
          (hsplit ▸ List.mem_append_right tail (List.mem_singleton_self _))
      obtain ⟨u, rfl, htail⟩ : ∃ u, r2 = u ++ ['\x7d'] ∧ tail = op ++ u := by
        obtain ⟨c, w, hw⟩ : ∃ c w, r2.reverse = c :: w := by
          cases hr : r2.reverse with
          | nil => exact absurd (by simpa using congrArg List.reverse hr) hr2ne
          | cons c w => exact ⟨c, w, rfl⟩
        have hrev := congrArg List.reverse hsplit
        rw [List.reverse_append, List.reverse_append, hw] at hrev
        simp only [List.reverse_cons, List.reverse_nil, List.nil_append,
          List.singleton_append, List.cons_append] at hrev
        obtain ⟨hc, ht⟩ := List.cons.injEq .. ▸ hrev
        refine ⟨w.reverse, ?_, ?_⟩
        · have : r2 = (c :: w).reverse := by
            rw [← hw, List.reverse_reverse]
          rw [this, List.reverse_cons, hc]
        · have : tail = (w ++ op.reverse).reverse := by
            rw [← ht, List.reverse_reverse]
          rw [this, List.reverse_append, List.reverse_reverse]
      have huin : ∀ c ∈ u, (fun c => decide (c ≠ '\x7d')) c = true := by
        intro c hc
        simp only [decide_eq_true_eq]
        intro he
        subst he
        exact hb (htail ▸ List.mem_append_right op hc)
      have htake : ((u ++ ['\x7d']) ++ X).takeWhile
          (fun c => decide (c ≠ '\x7d')) = u := by
        rw [List.append_assoc, takeWhile_append_all huin]
        simp [List.takeWhile_cons]
      have hdrop : ((u ++ ['\x7d']) ++ X).dropWhile
          (fun c => decide (c ≠ '\x7d')) = '\x7d' :: X := by
        rw [List.append_assoc, dropWhile_append_all huin]
        simp [List.dropWhile_cons]
      have htake1 : (u ++ ['\x7d']).takeWhile
          (fun c => decide (c ≠ '\x7d')) = u := by
        rw [takeWhile_append_all huin]
        simp [List.takeWhile_cons]
      have hdrop1 : (u ++ ['\x7d']).dropWhile
          (fun c => decide (c ≠ '\x7d')) = ['\x7d'] := by
        rw [dropWhile_append_all huin]
        simp [List.dropWhile_cons]
      rw [htake, hdrop, htake1, hdrop1]
      cases u with
      | nil => exact hrec
      | cons v0 vs => rfl

/-- A non-brace character never begins a case-insensitive brace-led
pattern. -/
theorem dropPrefixCI_brace_none {pat cs : List Char} {c : Char}
    (h : c ≠ '\x7b') : dropPrefixCI ('\x7b' :: pat) (c :: cs) = none := by
  rw [dropPrefixCI, if_neg]
  intro he
  exact h (eq_brace_of_jsToLower he)

/-- The editor's body scan on a brace-free body followed by a closer. -/
theorem splitAtCloser_clean {body : List Char} (hb : '\x7b' ∉ body) :
    ∀ X, splitAtCloser
        (body ++ '\x7b' :: '/' :: 'i' :: 'f' :: '\x7d' :: X) =
      some (body, X) := by
  induction body with
  | nil => intro X; rfl
  | cons c body ih =>
    intro X
    have hc : c ≠ '\x7b' := fun he => hb (he ▸ List.mem_cons_self ..)
    rw [List.cons_append, splitAtCloser]
    rw [show ("\x7b/if\x7d".data : List Char) = '\x7b' :: "/if\x7d".data from rfl]
    rw [dropPrefixCI_brace_none hc]
    rw [ih (fun hm => hb (List.mem_cons_of_mem _ hm)) X]

/-- The engine's body scan on a brace-free body followed by a closer. -/
theorem splitAtCloserNoIf_clean {body : List Char} (hb : '\x7b' ∉ body) :
    ∀ X, splitAtCloserNoIf
        (body ++ '\x7b' :: '/' :: 'i' :: 'f' :: '\x7d' :: X) =
      some (body, X) := by
  induction body with
  | nil => intro X; rfl
  | cons c body ih =>
    intro X
    have hc : c ≠ '\x7b' := fun he => hb (he ▸ List.mem_cons_self ..)
    rw [List.cons_append, splitAtCloserNoIf]
    rw [show ("\x7b/if\x7d".data : List Char) = '\x7b' :: "/if\x7d".data from rfl]
    rw [dropPrefixCI_brace_none hc]
    rw [show ("\x7bif:".data : List Char) = '\x7b' :: "if:".data from rfl]
    rw [dropPrefixCI_brace_none hc]
    rw [if_neg (by simp)]
    rw [ih (fun hm => hb (List.mem_cons_of_mem _ hm)) X]

/-- The conditional header parses a rendered block header in full,
independently of what follows the closing brace. -/
theorem parseIfHeaderAt_block {name tail : List Char} (hn : name ≠ [])
    (hw : ∀ c ∈ name, isWordChar c = true)
    (hth : ∀ c, tail.head? = some c → isWordChar c = false)
    (hbt : '\x7d' ∉ tail)
    (hok : tail = [] ∨ (tailParse tail).isSome) :
    ∀ REST, parseIfHeaderAt
        ('\x7b' :: 'i' :: 'f' :: ':' :: (name ++ (tail ++ '\x7d' :: REST))) =
      some (name, tailParse tail, REST) := by
  intro REST
  rw [parseIfHeaderAt]
  have hdrop : dropPrefixCI "\x7bif:".data
      ('\x7b' :: 'i' :: 'f' :: ':' :: (name ++ (tail ++ '\x7d' :: REST))) =
      some (name ++ (tail ++ '\x7d' :: REST)) := rfl
  rw [hdrop]
  dsimp only
  have htail1 : (tail ++ '\x7d' :: REST).takeWhile isWordChar = [] := by
    cases tail with
    | nil =>
      simp [List.takeWhile_cons, isWordChar]
    | cons t ts =>
      rw [List.cons_append, List.takeWhile_cons, hth t rfl]
      rfl
  have htail2 : (tail ++ '\x7d' :: REST).dropWhile isWordChar =
      tail ++ '\x7d' :: REST := by
    cases tail with
    | nil =>
      simp [List.dropWhile_cons, isWordChar]
    | cons t ts =>
      rw [List.cons_append, List.dropWhile_cons, hth t rfl]
      rfl
  have hname : parseName (name ++ (tail ++ '\x7d' :: REST)) =
      some (name, tail ++ '\x7d' :: REST) := by
    rw [parseName]
    rw [takeWhile_append_all hw, dropWhile_append_all hw, htail1, htail2]
    rw [List.append_nil]
    rw [if_neg (by simpa using hn)]
  rw [hname]
  dsimp only
  have hext := @tryCmpOps_extend cmpOps (by decide) tail hbt REST
  rcases hok with rfl | hsome
  · have hnone : tryCmpOps cmpOps (['\x7d'] : List Char) = none := by decide
    have htp : tailParse ([] : List Char) = none := by decide
    simp only [List.nil_append] at hext ⊢
    rw [hext, hnone, htp]
    rfl
  · have hq : ∃ t, tryCmpOps cmpOps (tail ++ ['\x7d']) = some t := by
      rcases ho : tryCmpOps cmpOps (tail ++ ['\x7d']) with _ | t
      · rw [tailParse, ho] at hsome
        simp at hsome
      · exact ⟨t, rfl⟩
    obtain ⟨⟨o', v', r'⟩, hq⟩ := hq
    rw [hext, hq, tailParse, hq]
    rfl

/-- The editor matcher fires on a rendered block, producing exactly its
evaluated replacement. -/
theorem formatCondMatch_block {vars : VarState} {name tail body : List Char}
    (hok : SegOK (.block name tail body)) (X : List Char) :
    Format.condMatchAt vars (renderSeg (.block name tail body) ++ X) =
      some (segOut vars (.block name tail body), X) := by
  obtain ⟨hn, hw, hbb, hbt, hth0, htail⟩ := hok
  have hth : ∀ c, tail.head? = some c → isWordChar c = false := by
    intro c hc
    rw [hc] at hth0
    simpa using hth0
  have hrender : renderSeg (.block name tail body) ++ X =
      '\x7b' :: 'i' :: 'f' :: ':' ::
        (name ++ (tail ++ '\x7d' ::
          (body ++ '\x7b' :: '/' :: 'i' :: 'f' :: '\x7d' :: X))) := by
    rw [renderSeg]
    simp [List.append_assoc]
  rw [hrender, Format.condMatchAt,
    parseIfHeaderAt_block hn hw hth hbt htail]
  dsimp only
  rw [splitAtCloser_clean hbb X]
  rfl

/-- The engine matcher fires on a rendered block, producing exactly the
same replacement. -/
theorem engineCondMatch_block {vars : VarState} {name tail body : List Char}
    (hok : SegOK (.block name tail body)) (X : List Char) :
    EngineVars.condMatchAt vars (renderSeg (.block name tail body) ++ X) =
      some (segOut vars (.block name tail body), X) := by
  obtain ⟨hn, hw, hbb, hbt, hth0, htail⟩ := hok
  have hth : ∀ c, tail.head? = some c → isWordChar c = false := by
    intro c hc
    rw [hc] at hth0
    simpa using hth0
  have hrender : renderSeg (.block name tail body) ++ X =
      '\x7b' :: 'i' :: 'f' :: ':' ::
        (name ++ (tail ++ '\x7d' ::
          (body ++ '\x7b' :: '/' :: 'i' :: 'f' :: '\x7d' :: X))) := by
    rw [renderSeg]
    simp [List.append_assoc]
  rw [hrender, EngineVars.condMatchAt,
    parseIfHeaderAt_block hn hw hth hbt htail]
  dsimp only
  rw [splitAtCloserNoIf_clean hbb X]
  rfl

/-- The editor matcher never fires off a brace. -/
theorem formatCondMatch_head_ne {vars : VarState} {c : Char}
    {cs : List Char} (h : c ≠ '\x7b') :
    Format.condMatchAt vars (c :: cs) = none := by
  cases hm : Format.condMatchAt vars (c :: cs) with
  | none => rfl
  | some pr =>
    exfalso
    rw [Format.condMatchAt] at hm
    cases hh : parseIfHeaderAt (c :: cs) with
    | none => rw [hh] at hm; cases hm
    | some t =>
      obtain ⟨name, cmp, afterHdr⟩ := t
      exact h (parseIfHeaderAt_head hh)

/-- The engine matcher never fires off a brace. -/
theorem engineCondMatch_head_ne {vars : VarState} {c : Char}
    {cs : List Char} (h : c ≠ '\x7b') :
    EngineVars.condMatchAt vars (c :: cs) = none := by
  cases hm : EngineVars.condMatchAt vars (c :: cs) with
  | none => rfl
  | some pr =>
    exfalso
    rw [EngineVars.condMatchAt] at hm
    cases hh : parseIfHeaderAt (c :: cs) with
    | none => rw [hh] at hm; cases hm
    | some t =>
      obtain ⟨name, cmp, afterHdr⟩ := t
      exact h (parseIfHeaderAt_head hh)

/-- An unchanged scan copied its input. -/
theorem replaceScanBF_unchanged {p : List Char → Option (List Char × List Char)} :
    ∀ (f : Nat) (cs : List Char), (replaceScanBF p f cs).2 = false →
      (replaceScanBF p f cs).1 = cs := by
  intro f
  induction f with
  | zero => intro cs _; cases cs <;> rfl
  | succ f ih =>
    intro cs h
    cases cs with
    | nil => rfl
    | cons c cs =>
      rw [replaceScanBF] at h ⊢
      cases hm : p (c :: cs) with
      | some pr =>
        rw [hm] at h
        dsimp only at h
        exact Bool.noConfusion h
      | none =>
        rw [hm] at h
        dsimp only at h ⊢
        rw [ih cs h]

/-- One scanning pass over a rendered segment list: each block is
replaced, each plain stretch copied, and the flag records whether any
block was replaced.  Shared by the editor matcher and the engine matcher
through the three hypotheses. -/
theorem replaceScanBF_segs {vars : VarState}
    {p : List Char → Option (List Char × List Char)}
    (hp : ∀ cs r rest, p cs = some (r, rest) → rest.length < cs.length)
    (hplain : ∀ (c : Char) (cs : List Char), c ≠ '\x7b' → p (c :: cs) = none)
    (hblock : ∀ name tail body X, SegOK (.block name tail body) →
      p (renderSeg (.block name tail body) ++ X) =
        some (segOut vars (.block name tail body), X)) :
    ∀ segs, (∀ seg ∈ segs, SegOK seg) →
      ∀ f, (renderSegs segs).length ≤ f →
        replaceScanBF p f (renderSegs segs) =
          ((segs.map (segOut vars)).flatten, segs.any isBlockSeg) := by
  intro segs
  induction segs with
  | nil =>
    intro _ f _
    cases f <;> rfl
  | cons seg segs ih =>
    intro hoks f hf
    have hok := hoks seg (List.mem_cons_self ..)
    have hoks2 := fun s hs => hoks s (List.mem_cons_of_mem _ hs)
    have hrend : renderSegs (seg :: segs) = renderSeg seg ++ renderSegs segs := by
      rw [renderSegs, List.map_cons, List.flatten_cons]
      rfl
    rw [hrend] at hf ⊢
    cases seg with
    | plain s =>
      have hsp : '\x7b' ∉ s := hok
      rw [show renderSeg (.plain s) = s from rfl] at hf ⊢
      rw [replaceScanBF_append_nomatch hp s (renderSegs segs) f hf ?hnm]
      case hnm =>
        intro t2 ht2 hne
        cases t2 with
        | nil => exact absurd rfl hne
        | cons c t2 =>
          have hcm : c ∈ s := ht2.subset (List.mem_cons_self ..)
          exact hplain c _ fun he => hsp (he ▸ hcm)
      rw [ih hoks2 _ le_rfl]
      simp [segOut, isBlockSeg]
    | block name tail body =>
      rw [replaceScanBF_match_head hp _ _ _ f
        (hblock name tail body (renderSegs segs) hok) hf]
      rw [ih hoks2 _ le_rfl]
      simp [isBlockSeg]

/-- A block replacement only contains body characters. -/
theorem condReplacement_subset {vars : VarState} {name : List Char}
    {cmp : Option (List Char × List Char)} {body : List Char} {c : Char}
    (h : c ∈ condReplacement vars name cmp body) : c ∈ body := by
  rw [condReplacement.eq_def] at h
  dsimp only at h
  split at h
  · exact h
  · cases h

/-- The one-pass output of a well-formed segment list is brace-free. -/
theorem segOut_brace_free {vars : VarState} {segs : List CondSeg}
    (hoks : ∀ seg ∈ segs, SegOK seg) :
    '\x7b' ∉ (segs.map (segOut vars)).flatten := by
  induction segs with
  | nil => simp
  | cons seg segs ih =>
    rw [List.map_cons, List.flatten_cons]
    intro hm
    rcases List.mem_append.mp hm with hm | hm
    · cases seg with
      | plain s => exact hoks (.plain s) (List.mem_cons_self ..) hm
      | block name tail body =>
        have hok := hoks (.block name tail body) (List.mem_cons_self ..)
        exact hok.2.2.1 (condReplacement_subset hm)
    · exact ih (fun s hs => hoks s (List.mem_cons_of_mem _ hs)) hm

/-- With a fixed-point input, the engine loop is the identity for every
fuel. -/
theorem engineLoop_of_fixed {vars : VarState} {x : List Char}
    (h : EngineVars.enginePass vars x = (x, false)) :
    ∀ f, EngineVars.engineLoop vars f x = x := by
  intro f
  cases f with
  | zero => rfl
  | succ f =>
    rw [EngineVars.engineLoop]
    rw [h]
    simp

/-- C3 (amended): on texts assembled from brace-free stretches and
complete, non-nested conditional blocks with brace-free bodies, the
editor's single-pass resolver and the engine's innermost-first fixed
point loop produce identical output. -/
theorem conditionals_editor_engine_agree (segs : List CondSeg)
    (vars : VarState) (hok : ∀ seg ∈ segs, SegOK seg) :
    Format.processConditionals (renderSegs segs) vars =
      EngineVars.processConditionals (renderSegs segs) vars := by
  have hfmt := @replaceScanBF_segs vars (Format.condMatchAt vars)
    (fun cs r rest h => by
      have := formatCondMatch_len h
      omega)
    (fun c cs h => formatCondMatch_head_ne h)
    (fun name tail body X h => formatCondMatch_block h X)
    segs hok ((renderSegs segs).length + 1) (by omega)
  have heng := @replaceScanBF_segs vars (EngineVars.condMatchAt vars)
    (fun cs r rest h => by
      have := engineCondMatch_len h
      omega)
    (fun c cs h => engineCondMatch_head_ne h)
    (fun name tail body X h => engineCondMatch_block h X)
    segs hok ((renderSegs segs).length + 1) (by omega)
  have houts : ∀ t2, t2 <:+ (segs.map (segOut vars)).flatten →
      EngineVars.condMatchAt vars t2 = none := by
    intro t2 ht2
    cases t2 with
    | nil => rfl
    | cons c t2 =>
      have hcm : c ∈ (segs.map (segOut vars)).flatten :=
        ht2.subset (List.mem_cons_self ..)
      exact engineCondMatch_head_ne fun he =>
        segOut_brace_free hok (he ▸ hcm)
  rw [Format.processConditionals, hfmt]
  rw [EngineVars.processConditionals, EngineVars.engineLoop]
  rw [show EngineVars.enginePass vars (renderSegs segs) =
    replaceScanBF (EngineVars.condMatchAt vars)
      ((renderSegs segs).length + 1) (renderSegs segs) from rfl]
  rw [heng]
  by_cases hany : segs.any isBlockSeg = true
  · rw [hany]
    dsimp only
    rw [if_pos rfl]
    have hfix : EngineVars.enginePass vars
        ((segs.map (segOut vars)).flatten) =
        ((segs.map (segOut vars)).flatten, false) := by
      rw [EngineVars.enginePass,
        replaceScanBF_nomatch _ _ houts]
    rw [engineLoop_of_fixed hfix]
  · have hfalse : segs.any isBlockSeg = false := by
      cases hq : segs.any isBlockSeg
      · rfl
      · exact absurd hq hany
    rw [hfalse]
    dsimp only
    rw [if_neg (by simp)]
    have := heng
    rw [hfalse] at this
    have h1 : (replaceScanBF (EngineVars.condMatchAt vars)
        ((renderSegs segs).length + 1) (renderSegs segs)).1 =
        renderSegs segs :=
      replaceScanBF_unchanged _ _ (by rw [this])
    rw [this] at h1
    exact h1

/-- Witness for `conditionals_editor_engine_agree`: two flat blocks with
plain text between them, against a state where `coins = 15`. -/
theorem conditionals_editor_engine_agree_witness :
    (∀ seg ∈ [CondSeg.block "a".data [] "X".data,
        CondSeg.plain " and ".data,
        CondSeg.block "coins".data ">=10".data "Y".data], SegOK seg) ∧
    Format.processConditionals
        (renderSegs [CondSeg.block "a".data [] "X".data,
          CondSeg.plain " and ".data,
          CondSeg.block "coins".data ">=10".data "Y".data])
        [("coins".data, VarValue.num 15)] =
      EngineVars.processConditionals
        (renderSegs [CondSeg.block "a".data [] "X".data,
          CondSeg.plain " and ".data,
          CondSeg.block "coins".data ">=10".data "Y".data])
        [("coins".data, VarValue.num 15)] :=
  ⟨by decide, conditionals_editor_engine_agree _ _ (by decide)⟩

/-- C3 (counterexample): on the nested text
`\x7bif:a\x7dX\x7bif:b\x7dY\x7b/if\x7dZ\x7b/if\x7d` with the empty state,
the editor returns `Z\x7b/if\x7d` while the engine returns the empty
string, so the two resolvers are not equivalent. -/
theorem conditionals_editor_engine_differ :
    Format.processConditionals
        "\x7bif:a\x7dX\x7bif:b\x7dY\x7b/if\x7dZ\x7b/if\x7d".data [] =
      "Z\x7b/if\x7d".data ∧
    EngineVars.processConditionals
        "\x7bif:a\x7dX\x7bif:b\x7dY\x7b/if\x7dZ\x7b/if\x7d".data [] = [] ∧
    Format.processConditionals
        "\x7bif:a\x7dX\x7bif:b\x7dY\x7b/if\x7dZ\x7b/if\x7d".data [] ≠
      EngineVars.processConditionals
        "\x7bif:a\x7dX\x7bif:b\x7dY\x7b/if\x7dZ\x7b/if\x7d".data [] :=
  ⟨by decide, by decide, by decide⟩


/-- C8: choice-line extraction matches the pattern letter `)` with the
letter in `a`-`e` (case-insensitive), an optional bracketed page-id goto,
and trailing text: `"b) [3ab] Return to the cave"` parses to letter `b`,
text `Return to the cave`, goto `3ab`; `"f) bad"` is not a match; every
matched choice line is emitted to the choice list and removed from the
residual story text (the scan drops exactly the matched span in both
passes), as the end-to-end example shows. -/
theorem extractChoices_spec :
    parseChoiceLine ("b) [3ab] Return to the cave".data) =
      some ⟨'b', "Return to the cave".data, some "3ab".data⟩ ∧
    parseChoiceLine ("f) bad".data) = none ∧
    (∀ (f : Nat) (s : List Char) (ch : ExtractedChoice) (rest : List Char),
      matchChoiceAt s = some (ch, rest) →
      extractLoopF (f + 1) true s = ch :: extractLoopF f false rest ∧
      removeChoiceLinesF (f + 1) true s = removeChoiceLinesF f false rest) ∧
    extractChoices ("Story text.\na) Go north\nb) [3ab] Return to the cave".data) =
      ("Story text.".data,
        [⟨'a', "Go north".data, none⟩,
         ⟨'b', "Return to the cave".data, some "3ab".data⟩]) := by
  refine ⟨by decide, by decide, ?_, by decide⟩
  intro f s ch rest h
  cases s with
  | nil =>
    rw [show matchChoiceAt ([] : List Char) = none from rfl] at h
    cases h
  | cons c cs =>
    constructor
    · rw [extractLoopF, if_pos rfl, h]
    · rw [removeChoiceLinesF, if_pos rfl, h]

/-- The C8 scan step applied at a concrete matched line. -/
theorem extractChoices_spec_witness :
    matchChoiceAt ("a) Hi\nrest".data) =
      some (⟨'a', "Hi".data, none⟩, "\nrest".data) ∧
    extractLoopF 11 true ("a) Hi\nrest".data) =
      ⟨'a', "Hi".data, none⟩ :: extractLoopF 10 false ("\nrest".data) :=
  ⟨by decide,
    (extractChoices_spec.2.2.1 10 ("a) Hi\nrest".data) _ _ (by decide)).1⟩



/-! ### Termination and membership of the descendant walk -/

/-- One step of the `getDescendants` queue loop. -/
theorem descLoop_cons (pages : List (List Char)) (f : Nat)
    (cur : List Char) (rest acc : List (List Char)) :
    descLoop pages (f + 1) (cur :: rest) acc =
      descLoop pages f (rest ++ descChildren pages cur)
        (acc ++ descChildren pages cur) := rfl

/-- The loop returns the accumulator once the queue is empty. -/
theorem descLoop_nil (pages : List (List Char)) (f : Nat)
    (acc : List (List Char)) : descLoop pages f [] acc = acc := by
  cases f <;> rfl

/-- A positive `contains` test is membership. -/
theorem contains_mem {pages : List (List Char)} {x : List Char}
    (h : pages.contains x = true) : x ∈ pages := by
  simpa using h

/-- Enqueued children exist in the collection. -/
theorem descChildren_mem {pages : List (List Char)} {cur x : List Char}
    (h : x ∈ descChildren pages cur) : x ∈ pages := by
  rw [descChildren, List.mem_filter] at h
  exact contains_mem h.2

/-- The shape of a generated child id. -/
theorem descChildren_shape {pages : List (List Char)} {cur x : List Char}
    (h : x ∈ descChildren pages cur) :
    ∃ p letter, parsePageId cur = some p ∧ isChoiceLetter letter = true ∧
      x = natToString (p.num + 1) ++ p.path ++ [letter] := by
  rw [descChildren, List.mem_filter] at h
  have h1 := h.1
  rw [List.mem_map] at h1
  obtain ⟨y, hy, rfl⟩ := h1
  rw [getChildIds] at hy
  cases hp : parsePageId cur with
  | none =>
    rw [hp] at hy
    dsimp only at hy
    cases hy
  | some p =>
    rw [hp] at hy
    dsimp only at hy
    rw [List.mem_map] at hy
    obtain ⟨letter, hl, rfl⟩ := hy
    refine ⟨p, letter, rfl, ?_, rfl⟩
    have hall : ∀ c ∈ "abcde".data.take 5, isChoiceLetter c = true := by decide
    exact hall letter hl

/-- The path produced by `parsePageId` is made of choice letters. -/
theorem parsePageId_path {s : List Char} {p : ParsedPageId}
    (h : parsePageId s = some p) :
    ∀ c ∈ p.path, isChoiceLetter c = true := by
  rw [parsePageId] at h
  by_cases hc : s.takeWhile isDigitC ≠ [] ∧
      (s.dropWhile isDigitC).all isChoiceLetter
  · rw [if_pos hc] at h
    simp only [Option.some.injEq] at h
    subst h
    intro c hcm
    dsimp only at hcm
    rw [List.mem_map] at hcm
    obtain ⟨d, hd, rfl⟩ := hcm
    exact (jsToLower_choice (List.all_eq_true.mp hc.2 d hd)).1
  · rw [if_neg hc] at h
    cases h

/-- `pageNumOf` reads the parsed number. -/
theorem pageNumOf_eq_of_parse {x : List Char} {q : ParsedPageId}
    (h : parsePageId x = some q) : pageNumOf x = q.num := by
  rw [pageNumOf, h]

/-- A generated child id parses back with the number one higher. -/
theorem parsePageId_child {cur : List Char} {p : ParsedPageId}
    {letter : Char} (hp : parsePageId cur = some p)
    (hl : isChoiceLetter letter = true) :
    parsePageId (natToString (p.num + 1) ++ p.path ++ [letter]) =
      some ⟨p.num + 1, (p.path ++ [letter]).map jsToLower⟩ := by
  have hd := natToString_spec (p.num + 1)
  have hpath : ∀ c ∈ p.path ++ [letter], isChoiceLetter c = true := by
    intro c hc
    rcases List.mem_append.mp hc with hc | hc
    · exact parsePageId_path hp c hc
    · rw [List.mem_singleton] at hc
      subst hc
      exact hl
  rw [List.append_assoc, parsePageId_append hd.1 hd.2 hpath,
    natOfDigits_natToString]

/-- An element is below the fold-maximum. -/
theorem le_foldr_max {a : Nat} {l : List Nat} (h : a ∈ l) :
    a ≤ l.foldr max 0 := by
  induction l with
  | nil => cases h
  | cons b l ih =>
    rw [List.foldr_cons]
    rcases List.mem_cons.mp h with rfl | h
    · exact Nat.le_max_left ..
    · exact le_trans (ih h) (Nat.le_max_right ..)

/-- Parseable keys of the collection bound `maxPageNum`. -/
theorem pageNum_le_max {pages : List (List Char)} {x : List Char}
    {p : ParsedPageId} (hm : x ∈ pages) (hp : parsePageId x = some p) :
    p.num ≤ maxPageNum pages := by
  rw [maxPageNum]
  apply le_foldr_max
  rw [List.mem_filterMap]
  exact ⟨x, hm, by rw [hp]; rfl⟩

/-- A constant-valued map sums to length times the constant. -/
theorem sum_map_const {α : Type} {f : α → Nat} {w : Nat} :
    ∀ {l : List α}, (∀ x ∈ l, f x = w) → (l.map f).sum = l.length * w := by
  intro l
  induction l with
  | nil => intro _; simp
  | cons a l ih =>
    intro h
    rw [List.map_cons, List.sum_cons,
      ih fun x hx => h x (List.mem_cons_of_mem a hx),
      h a (List.mem_cons_self ..), List.length_cons]
    ring

/-- Each dequeue strictly decreases the measure. -/
theorem descMeasure_step (pages : List (List Char)) (cur : List Char)
    (rest : List (List Char)) :
    descMeasure (maxPageNum pages) (rest ++ descChildren pages cur) <
      descMeasure (maxPageNum pages) (cur :: rest) := by
  have hsplit : descMeasure (maxPageNum pages)
      (rest ++ descChildren pages cur) =
      descMeasure (maxPageNum pages) rest +
        descMeasure (maxPageNum pages) (descChildren pages cur) := by
    rw [descMeasure, List.map_append, List.sum_append]
    rfl
  have hcons : descMeasure (maxPageNum pages) (cur :: rest) =
      descWeight (maxPageNum pages) cur +
        descMeasure (maxPageNum pages) rest := by
    rw [descMeasure, List.map_cons, List.sum_cons]
    rfl
  suffices h : descMeasure (maxPageNum pages) (descChildren pages cur) <
      descWeight (maxPageNum pages) cur by
    rw [hsplit, hcons]
    omega
  by_cases hne : descChildren pages cur = []
  · rw [hne]
    rw [descWeight]
    exact Nat.pos_pow_of_pos _ (by omega)
  · obtain ⟨x0, hx0⟩ := List.exists_mem_of_ne_nil _ hne
    obtain ⟨p, l0, hp, hl0, hsh⟩ := descChildren_shape hx0
    have hq0 := parsePageId_child hp hl0
    have hle : p.num + 1 ≤ maxPageNum pages := by
      have h2 := pageNum_le_max (descChildren_mem hx0) (hsh ▸ hq0)
      exact h2
    have hall : ∀ x ∈ descChildren pages cur,
        descWeight (maxPageNum pages) x =
          6 ^ (maxPageNum pages - p.num) := by
      intro x hx
      obtain ⟨p2, l2, hp2, hl2, hsh2⟩ := descChildren_shape hx
      rw [hp] at hp2
      injection hp2 with hp2
      subst hp2
      rw [descWeight, hsh2,
        pageNumOf_eq_of_parse (parsePageId_child hp hl2)]
      dsimp only
      congr 1
      omega
    have hlen : (descChildren pages cur).length ≤ 5 := by
      rw [descChildren]
      refine le_trans (List.length_filter_le ..) ?_
      rw [List.length_map, getChildIds, hp]
      dsimp only
      rw [List.length_map]
      decide
    have hsum : descMeasure (maxPageNum pages) (descChildren pages cur) =
        (descChildren pages cur).length *
          6 ^ (maxPageNum pages - p.num) := by
      rw [descMeasure]
      exact sum_map_const hall
    have hwpos : 1 ≤ 6 ^ (maxPageNum pages - p.num) :=
      Nat.one_le_pow _ _ (by omega)
    have hcur : descWeight (maxPageNum pages) cur =
        6 ^ (maxPageNum pages - p.num) * 6 := by
      rw [descWeight, pageNumOf_eq_of_parse hp,
        show maxPageNum pages + 1 - p.num =
          (maxPageNum pages - p.num) + 1 from by omega, pow_succ]
    rw [hsum, hcur]
    have h5 : (descChildren pages cur).length *
        6 ^ (maxPageNum pages - p.num) ≤
        5 * 6 ^ (maxPageNum pages - p.num) :=
      Nat.mul_le_mul_right _ hlen
    omega

/-- Any fuel at or above the measure computes the loop's limit. -/
theorem descLoop_stable (pages : List (List Char)) :
    ∀ (f : Nat) (queue acc : List (List Char)) (extra : Nat),
      descMeasure (maxPageNum pages) queue ≤ f →
      descLoop pages (f + extra) queue acc = descLoop pages f queue acc := by
  intro f
  induction f with
  | zero =>
    intro queue acc extra h
    have hq : queue = [] := by
      cases queue with
      | nil => rfl
      | cons q qs =>
        exfalso
        have hpos : 0 < descWeight (maxPageNum pages) q := by
          rw [descWeight]
          exact Nat.pos_pow_of_pos _ (by omega)
        have : 0 < descMeasure (maxPageNum pages) (q :: qs) := by
          rw [descMeasure, List.map_cons, List.sum_cons]
          omega
        omega
    subst hq
    rw [descLoop_nil, descLoop_nil]
  | succ f ih =>
    intro queue acc extra h
    cases queue with
    | nil => rw [descLoop_nil, descLoop_nil]
    | cons cur rest =>
      rw [show f + 1 + extra = (f + extra) + 1 from by omega,
        descLoop_cons, descLoop_cons]
      apply ih
      have := descMeasure_step pages cur rest
      omega

/-- The loop only ever adds existing pages to the accumulator. -/
theorem descLoop_mem (pages : List (List Char)) :
    ∀ (f : Nat) (queue acc : List (List Char)),
      (∀ x ∈ acc, x ∈ pages) →
      ∀ x ∈ descLoop pages f queue acc, x ∈ pages := by
  intro f
  induction f with
  | zero =>
    intro queue acc h x hx
    rw [show descLoop pages 0 queue acc = acc from rfl] at hx
    exact h x hx
  | succ f ih =>
    intro queue acc h x hx
    cases queue with
    | nil =>
      rw [descLoop_nil] at hx
      exact h x hx
    | cons cur rest =>
      rw [descLoop_cons] at hx
      refine ih _ _ ?_ x hx
      intro y hy
      rcases List.mem_append.mp hy with hy | hy
      · exact h y hy
      · exact descChildren_mem hy

/-- C9: for every finite page collection and every starting id,
`getDescendants` terminates - every dequeue strictly shrinks the measure
`sum of 6^(maxPageNum+1-num)` over the queue, so the loop reaches the
empty queue within the stated fuel and any further fuel returns the same
list - and it returns only ids present in the collection, walking
breadth-first over the child ids restricted to existing pages. -/
theorem getDescendants_spec (pageId : List Char)
    (pages : List (List Char)) :
    (∀ x ∈ getDescendants pageId pages, x ∈ pages) ∧
    ∀ extra : Nat,
      descLoop pages (6 ^ (maxPageNum pages + 1) + extra) [pageId] [] =
        getDescendants pageId pages := by
  constructor
  · intro x hx
    rw [getDescendants] at hx
    refine descLoop_mem pages _ _ _ ?_ x hx
    intro y hy
    cases hy
  · intro extra
    rw [getDescendants]
    apply descLoop_stable
    rw [descMeasure, List.map_cons, List.map_nil, List.sum_cons,
      List.sum_nil, descWeight]
    have hle : 6 ^ (maxPageNum pages + 1 - pageNumOf pageId) ≤
        6 ^ (maxPageNum pages + 1) :=
      Nat.pow_le_pow_right (by omega) (by omega)
    omega

/-- The C9 theorem applied at a concrete three-page story. -/
theorem getDescendants_spec_witness :
    "2a".data ∈ ["1".data, "2a".data, "2b".data] ∧
    descLoop ["1".data, "2a".data, "2b".data]
        (6 ^ (maxPageNum ["1".data, "2a".data, "2b".data] + 1) + 1)
        ["1".data] [] =
      getDescendants "1".data ["1".data, "2a".data, "2b".data] :=
  ⟨(getDescendants_spec "1".data
      ["1".data, "2a".data, "2b".data]).1 "2a".data (by decide),
   (getDescendants_spec "1".data ["1".data, "2a".data, "2b".data]).2 1⟩

end CYOA
